import Mathlib

/-!
Verification of the attendance-report pipeline in `bot.py`.

The core of the repository is `process_pdf` (table merge and aggregation,
lines 64-110) and `generate_chart` (lines 112-139).  The pipeline is built
on pandas DataFrames, so the embedding models the relevant fragment of
pandas semantics explicitly:

* a cell value (`PyVal`) is `null` (None/NaN), a string, or an integer
  (integers appear after `replace({'P': 1, 'A': 0})`);
* a DataFrame (`DF`) is a list of column labels plus a list of rows;
  labels are themselves cell values and may repeat, as in pandas;
* fallible pandas operations return `Except PyErr`; the error kinds mirror
  the Python exception classes raised at each point (IndexError,
  ValueError, TypeError, ZeroDivisionError, pandas InvalidIndexError);
* Python floats are modelled as exact rationals (`ℚ`); `"%.2f"` formatting
  is modelled with round-half-to-even, as Python formats doubles.
-/

inductive PyVal where
  | null
  | str (s : String)
  | int (n : ℤ)
  deriving DecidableEq

inductive PyErr where
  | noTablesFound
  | indexError
  | valueError
  | typeError
  | zeroDivisionError
  | invalidIndex
  deriving DecidableEq

/-- A raw table from one PDF page: a list of rows of cells, row 0 being the
header row of that table (`pdfplumber` cells are strings or None). -/
abbrev RawTable := List (List PyVal)

/-- A DataFrame: column labels plus data rows.  Labels may repeat. -/
structure DF where
  cols : List PyVal
  rows : List (List PyVal)
  deriving DecidableEq

/-- Sequential effectful map in `Except`, stopping at the first error.
Models pandas applying an aggregation per group / an operation per element. -/
def mapME (f : α → Except PyErr β) : List α → Except PyErr (List β)
  | [] => .ok []
  | a :: l =>
    match f a with
    | .error e => .error e
    | .ok b =>
      match mapME f l with
      | .error e => .error e
      | .ok bs => .ok (b :: bs)

/-- All positions of `x` in a list, in order.  `df[listOfLabels]` in pandas
selects, for each requested label, every column carrying that label. -/
def idxAll (x : PyVal) : List PyVal → List ℕ
  | [] => []
  | y :: l => (if y = x then [0] else []) ++ (idxAll x l).map (· + 1)

/-- First position of `x` in a list (pandas label lookup on a unique index). -/
def idxOf? (x : PyVal) : List PyVal → Option ℕ
  | [] => none
  | y :: l => if y = x then some 0 else (idxOf? x l).map (· + 1)

/-- Deduplication keeping the first occurrence of each value, in order of
appearance (pandas `unique` / index union order under `sort=False`). -/
def firstDedup (l : List PyVal) : List PyVal :=
  l.foldl (fun acc x => if x ∈ acc then acc else acc ++ [x]) []

/-- Pad a row to width `w` with nulls: `pd.DataFrame` pads ragged rows. -/
def padRow (w : ℕ) (r : List PyVal) : List PyVal :=
  r ++ List.replicate (w - r.length) .null

/-- Lines 72-74: `df = pd.DataFrame(table); df.columns = df.iloc[0];
df = df[1:]`.  An empty table makes `df.iloc[0]` raise IndexError. -/
def toDF (t : RawTable) : Except PyErr DF :=
  match t with
  | [] => .error .indexError
  | r0 :: rest =>
    let w := (t.map List.length).foldr max 0
    .ok ⟨padRow w r0, rest.map (padRow w)⟩

/-- Label-based column selection `df[labels]`: for each requested label, all
columns carrying it, in position order. -/
def selectLabels (df : DF) (labels : List PyVal) : DF :=
  let idxs := labels.flatMap (fun l => idxAll l df.cols)
  ⟨idxs.map (fun i => df.cols.getD i .null),
   df.rows.map (fun r => idxs.map (fun i => r.getD i .null))⟩

/-- Pairwise union of column indexes as `pd.concat(..., sort=False)` forms
it: shortcuts for equal or empty operands, otherwise values in order of
first appearance with multiplicity the maximum of the two sides
(pandas `union_with_duplicates`). -/
def idxUnion (a b : List PyVal) : List PyVal :=
  if a = b then a
  else if b = [] then a
  else if a = [] then b
  else
    (firstDedup (a ++ b)).flatMap
      (fun v => List.replicate (max (a.count v) (b.count v)) v)

def unionColsList : List (List PyVal) → List PyVal
  | [] => []
  | c :: cs => cs.foldl idxUnion c

/-- Reindex one row from source labels `cols` to target labels `u`
(only called when `cols` has no duplicate labels). -/
def reindexRow (cols u r : List PyVal) : List PyVal :=
  u.map (fun l =>
    match idxOf? l cols with
    | some i => r.getD i .null
    | none => .null)

/-- Line 86: `pd.concat(tables, ignore_index=True)`.  Identical column
indexes concatenate directly; otherwise every frame is reindexed to the
union of the columns, and reindexing a frame whose own labels repeat
raises (pandas: cannot reindex from a duplicate axis). -/
def concatDFs (dfs : List DF) : Except PyErr DF :=
  match dfs with
  | [] => .error .valueError
  | d :: ds =>
    if ds.all (fun e => e.cols = d.cols) then
      .ok ⟨d.cols, (dfs.map DF.rows).flatten⟩
    else
      let u := unionColsList (dfs.map DF.cols)
      match mapME (fun e =>
          if e.cols = u then .ok e.rows
          else if e.cols.Nodup then .ok (e.rows.map (reindexRow e.cols u))
          else .error .invalidIndex) dfs with
      | .error e => .error e
      | .ok parts => .ok ⟨u, parts.flatten⟩

/-- One iteration of the extraction loop, lines 71-81: build the frame,
take the first frame's columns as the canonical header, and for every later
frame keep only the columns whose label differs from the first canonical
label (`df = df[df.columns[df.columns != headers[0]]]`). -/
def mergeStep (acc : Option (List PyVal) × List DF) (t : RawTable) :
    Except PyErr (Option (List PyVal) × List DF) :=
  match toDF t with
  | .error e => .error e
  | .ok df =>
    match acc.1 with
    | none => .ok (some df.cols, acc.2 ++ [df])
    | some hs =>
      match hs with
      | [] => .error .indexError
      | h0 :: _ =>
        .ok (some hs, acc.2 ++ [selectLabels df (df.cols.filter (fun c => c ≠ h0))])

/-- Lines 64-87 of `process_pdf`: extract-and-filter every table, fail with
`ValueError("No tables found in the PDF.")` when there are none, then
concatenate and reassign the canonical header. -/
def merge (ts : List RawTable) : Except PyErr DF :=
  match ts.foldlM mergeStep (none, []) with
  | .error e => .error e
  | .ok (some hs, d :: ds) =>
    match concatDFs (d :: ds) with
    | .error e => .error e
    | .ok r =>
      if r.cols.length = hs.length then .ok ⟨hs, r.rows⟩ else .error .valueError
  | .ok _ => .error .noTablesFound

/-- The replacement dictionary of line 89: `{'P': 1, 'A': 0}`. -/
def statusDict : List (PyVal × PyVal) :=
  [(.str "P", .int 1), (.str "A", .int 0)]

/-- `Series.replace(dict)` on one cell: exact-match lookup, anything not in
the dictionary is passed through unchanged. -/
def pyReplace (d : List (PyVal × PyVal)) (v : PyVal) : PyVal :=
  match d.find? (fun p => p.1 = v) with
  | some p => p.2
  | none => v

/-- Python `+` on cell values: ints add, strings concatenate, anything else
(including None) raises TypeError. -/
def pyAdd (a b : PyVal) : Except PyErr PyVal :=
  match a, b with
  | .int x, .int y => .ok (.int (x + y))
  | .str x, .str y => .ok (.str (x ++ y))
  | _, _ => .error .typeError

def pySumGo (acc : PyVal) : List PyVal → Except PyErr PyVal
  | [] => .ok acc
  | v :: vs =>
    match pyAdd acc v with
    | .error e => .error e
    | .ok acc' => pySumGo acc' vs

/-- Whether a cell is present (pandas missing-value mask). -/
def nonNull (v : PyVal) : Bool := v ≠ .null

/-- Pandas group `sum` on an object column: missing values are skipped
(`skipna`), the rest is reduced pairwise with Python `+`, and an empty
reduction yields 0. -/
def pySum (l : List PyVal) : Except PyErr PyVal :=
  match l.filter nonNull with
  | [] => .ok (.int 0)
  | v :: vs => pySumGo v vs

/-- Python string comparison: lexicographic on the code points. -/
def strLe (a b : String) : Prop := a.data ≤ b.data

instance : DecidableRel strLe := fun a b => inferInstanceAs (Decidable (a.data ≤ b.data))

/-- The string values among a list of cells. -/
def strsOf (ks : List PyVal) : List String :=
  ks.filterMap (fun k => match k with | .str s => some s | _ => none)

/-- The integer values among a list of cells. -/
def intsOf (ks : List PyVal) : List ℤ :=
  ks.filterMap (fun k => match k with | .int n => some n | _ => none)

/-- `groupby(..., sort=True)` sorts the group keys with Python `<`:
all-string and all-int key sets sort, mixed ones raise TypeError.
(Null keys never reach this point: `groupby` drops them.) -/
def sortKeys (ks : List PyVal) : Except PyErr (List PyVal) :=
  if (strsOf ks).length = ks.length then
    .ok ((List.insertionSort strLe (strsOf ks)).map PyVal.str)
  else if (intsOf ks).length = ks.length then
    .ok ((List.insertionSort (· ≤ ·) (intsOf ks)).map PyVal.int)
  else .error .typeError

/-- Per-course statistics, one row of `grouped_df` plus its index entry. -/
structure CourseStats where
  course : PyVal
  sumPresent : ℤ
  countLecture : ℤ
  percentage : ℚ
  deriving DecidableEq

/-- Lines 88-94 of `process_pdf`.

* `result_df.iloc[:, [1, -1]]`: positions 1 and `n-1`; IndexError when the
  frame has fewer than two columns.
* `groupby(result_df.columns[0])`: grouping by label.  When that label is
  `None` (a null second header cell) the call is `groupby(None)` and pandas
  raises `TypeError: You have to supply one of 'by' and 'level'` before any
  grouper is resolved; otherwise, when the two selected columns carry the
  same label, pandas raises `ValueError: Grouper ... not 1-dimensional`.
* the status column is passed through `replace({'P': 1, 'A': 0})`;
* keys: distinct non-null course values, sorted (`dropna=True, sort=True`);
* `agg 'sum'` is the skipna Python sum per group, `agg 'count'` counts the
  non-null values per group;
* `Percentage = (Sum / Count) * 100`: a string sum raises TypeError, a zero
  count raises ZeroDivisionError, otherwise exact rational division. -/
def aggregateDF (df : DF) : Except PyErr (List CourseStats) :=
  let n := df.cols.length
  if n < 2 then .error .indexError
  else
    let c1 := df.cols.getD 1 .null
    let cl := df.cols.getD (n - 1) .null
    if c1 = .null then .error .typeError
    else if c1 = cl then .error .valueError
    else
      let pairs := df.rows.map
        (fun r => (r.getD 1 .null, pyReplace statusDict (r.getD (n - 1) .null)))
      match sortKeys (((pairs.map Prod.fst).filter nonNull).dedup) with
      | .error e => .error e
      | .ok keys =>
        match mapME (fun k =>
            pySum ((pairs.filter (fun p => p.1 = k)).map Prod.snd)) keys with
        | .error e => .error e
        | .ok sums =>
          let counts := keys.map (fun k =>
            (((pairs.filter (fun p => p.1 = k)).map Prod.snd).filter
              nonNull).length)
          match mapME (fun sc =>
              match sc.1 with
              | .int m =>
                if sc.2 = 0 then .error .zeroDivisionError
                else .ok (m, ((m : ℚ) / ((sc.2 : ℤ) : ℚ)) * 100)
              | _ => .error .typeError) (sums.zip counts) with
          | .error e => .error e
          | .ok pcts =>
            .ok (List.zipWith
              (fun k (cp : ℕ × (ℤ × ℚ)) =>
                ⟨k, cp.2.1, (cp.1 : ℤ), cp.2.2⟩)
              keys (counts.zip pcts))

/-- Python `str()` of a cell as it appears interpolated into an f-string. -/
def showVal : PyVal → String
  | .null => "None"
  | .str s => s
  | .int n => toString n

/-- Round to the nearest integer, ties to even (Python float formatting). -/
def roundHalfEven (x : ℚ) : ℤ :=
  let f := ⌊x⌋
  let r := x - (f : ℚ)
  if r < 1 / 2 then f
  else if r > 1 / 2 then f + 1
  else if f % 2 = 0 then f else f + 1

/-- Python `"%.2f"` formatting of a (rational-modelled) float. -/
def pyFormat2f (x : ℚ) : String :=
  let n := roundHalfEven (x * 100)
  let sign := if n < 0 then "-" else ""
  let m := n.natAbs
  let frac := m % 100
  sign ++ toString (m / 100) ++ "." ++
    (if frac < 10 then "0" else "") ++ toString frac

/-- One report block, lines 98-102.  The literal prefixes are the exact
characters present in the source file (mojibake of emoji: U+201A U+00FA
U+00D6, U+201A U+00F9 U+00E5, U+F8FF U+00FC U+00EC U+00E4, U+F8FF U+00FC
U+00EC U+00E0), and each block ends with a newline of its own. -/
def reportBlock (s : CourseStats) : String :=
  "Course: " ++ showVal s.course ++ "\n" ++
  "‚úÖ Present: " ++ toString s.sumPresent ++ "\n" ++
  "‚ùå Absent: " ++ toString (s.countLecture - s.sumPresent) ++ "\n" ++
  "üìä Total: " ++ toString s.countLecture ++ "\n" ++
  "üìà Percentage: " ++ pyFormat2f s.percentage ++ "%\n"

/-- Lines 96-105: `"\n".join(block for each grouped row)`. -/
def report_text (stats : List CourseStats) : String :=
  String.intercalate "\n" (stats.map reportBlock)

/-- Line 29: `TEMP_DIR = tempfile.gettempdir()`, a process-wide constant
(modelled with its usual value; only its fixedness matters below). -/
def TEMP_DIR : String := "/tmp"

/-- `os.path.join` for the one shape used here: a separator is inserted
unless the left part already ends with one. -/
def os_path_join (a b : String) : String :=
  if a.data.getLast? = some '/' then a ++ b else a ++ "/" ++ b

/-- The observable effect of `generate_chart`, lines 112-139: the figure
drawn and the path written by `plt.savefig`. -/
structure Chart where
  bars : List (PyVal × ℚ)
  barLabels : List String
  xlabel : String
  ylabel : String
  title : String
  ylim : ℚ × ℚ
  outPath : String
  deriving DecidableEq

/-- Lines 112-139.  The body is a straight-line sequence of matplotlib
calls with no guard and no raise: one bar per grouped course (height =
percentage, label = `'%.2f%%'`), fixed titles, `ylim(0, 110)`, and an
unconditional `savefig(chart_path)` — also when `stats` is empty, in which
case a chart with zero bars is written. -/
def generate_chart (stats : List CourseStats) (chart_path : String) :
    Except PyErr Chart :=
  .ok
    { bars := stats.map (fun s => (s.course, s.percentage))
      barLabels := stats.map (fun s => pyFormat2f s.percentage ++ "%")
      xlabel := "Course"
      ylabel := "Attendance Percentage"
      title := "Attendance Report"
      ylim := (0, 110)
      outPath := chart_path }

/-- Lines 64-110 of `process_pdf`, over the tables `pdfplumber` extracted
(one list of raw tables per page, in page order; the loop flattens them in
order).  Returns the report text and the chart path. -/
def process_pdf (pages : List (List RawTable)) : Except PyErr (String × String) :=
  match merge (pages.flatMap id) with
  | .error e => .error e
  | .ok df =>
    match aggregateDF df with
    | .error e => .error e
    | .ok stats =>
      let chart_path := os_path_join TEMP_DIR "attendance_chart.png"
      match generate_chart stats chart_path with
      | .error e => .error e
      | .ok _ => .ok (report_text stats, chart_path)

/-! ### Specification-side definitions, used to state the claims -/

/-- The group keys as the spec describes them: the distinct non-null course
names (cell at position 1 of each row), in sorted order. -/
def sortedCourses (df : DF) : List PyVal :=
  (List.insertionSort strLe
    (strsOf (((df.rows.map (fun r => r.getD 1 .null)).filter
      nonNull).dedup))).map PyVal.str

/-- The rows of the group of course `k`. -/
def groupRows (df : DF) (k : PyVal) : List (List PyVal) :=
  df.rows.filter (fun r => r.getD 1 .null = k)

/-- `aggregate` as the spec words it: for each course group, presentCount
is the sum of the mapped status values (the number of `"P"` rows, the
vocabulary being `{"P","A"}`), lectureCount the number of rows in the
group, and percentage `100 * presentCount / lectureCount`. -/
def specAggregate (df : DF) : List CourseStats :=
  (sortedCourses df).map (fun k =>
    let grp := groupRows df k
    let p := (grp.filter
      (fun r => r.getD (df.cols.length - 1) .null = .str "P")).length
    { course := k
      sumPresent := (p : ℤ)
      countLecture := (grp.length : ℤ)
      percentage := 100 * (p : ℚ) / ((grp.length : ℤ) : ℚ) })

/-- The data rows `merge` must produce when every table repeats one
rectangular, duplicate-free header: the first table's data rows unchanged,
then for each later table its data rows with the leading cell replaced by
null (its first column was dropped and realigned), in page order. -/
def mergeSpecRows : List RawTable → List (List PyVal)
  | [] => []
  | t :: ts =>
    t.tail ++ ts.flatMap (fun tab => tab.tail.map (fun r => .null :: r.drop 1))

/-- The report format as the spec words it: five plain lines per course,
blocks joined by a single newline with no blank line. -/
def claimedReport (stats : List CourseStats) : String :=
  String.intercalate "\n" (stats.map (fun s =>
    "Course: " ++ showVal s.course ++ "\n" ++
    "Present: " ++ toString s.sumPresent ++ "\n" ++
    "Absent: " ++ toString (s.countLecture - s.sumPresent) ++ "\n" ++
    "Total: " ++ toString s.countLecture ++ "\n" ++
    "Percentage: " ++ pyFormat2f s.percentage ++ "%"))

/-- Substring test on strings. -/
def strContains (s pat : String) : Bool := decide (pat.data <:+: s.data)

/-! ### Helper lemmas -/

def PyVal.toInt : PyVal → Option ℤ
  | .int n => some n
  | _ => none

def PyVal.toStr : PyVal → Option String
  | .str s => some s
  | _ => none

/-- Whether a cell holds an integer. -/
def PyVal.isInt : PyVal → Bool
  | .int _ => true
  | _ => false

theorem nonNull_null : nonNull .null = false := rfl

theorem nonNull_str (s : String) : nonNull (.str s) = true := rfl

theorem nonNull_int (n : ℤ) : nonNull (.int n) = true := rfl

theorem mapME_ok_of_forall {α β : Type} {f : α → Except PyErr β} {g : α → β} :
    ∀ {l : List α}, (∀ a ∈ l, f a = .ok (g a)) → mapME f l = .ok (l.map g)
  | [], _ => rfl
  | a :: l, h => by
    have ha := h a (List.mem_cons_self a l)
    have hl := mapME_ok_of_forall (fun x hx => h x (List.mem_cons_of_mem a hx))
    simp [mapME, ha, hl]

theorem mapME_ok_length {α β : Type} {f : α → Except PyErr β} :
    ∀ {l : List α} {out : List β}, mapME f l = .ok out → out.length = l.length := by
  intro l
  induction l with
  | nil => intro out h; simp [mapME] at h; simp [← h]
  | cons a l ih =>
    intro out h
    simp only [mapME] at h
    rcases ha : f a with e | b <;> rw [ha] at h
    · simp at h
    · rcases hl : mapME f l with e | bs <;> rw [hl] at h
      · simp at h
      · simp only [Except.ok.injEq] at h
        subst h
        simp [ih hl]

theorem mapME_ok_getD {α β : Type} {f : α → Except PyErr β} (da : α) (db : β) :
    ∀ {l : List α} {out : List β}, mapME f l = .ok out →
      ∀ i, i < l.length → f (l.getD i da) = .ok (out.getD i db) := by
  intro l
  induction l with
  | nil => intro out h i hi; simp at hi
  | cons a l ih =>
    intro out h i hi
    simp only [mapME] at h
    rcases ha : f a with e | b <;> rw [ha] at h
    · simp at h
    · rcases hl : mapME f l with e | bs <;> rw [hl] at h
      · simp at h
      · simp only [Except.ok.injEq] at h
        subst h
        cases i with
        | zero => simpa using ha
        | succ i =>
          simp only [List.getD_cons_succ]
          exact ih hl i (by simpa using hi)

theorem pySumGo_ints :
    ∀ {l : List PyVal} (a : ℤ), (∀ v ∈ l, ∃ n : ℤ, v = .int n) →
      pySumGo (.int a) l = .ok (.int (a + (l.filterMap PyVal.toInt).sum)) := by
  intro l
  induction l with
  | nil => intro a h; simp [pySumGo]
  | cons v l ih =>
    intro a h
    obtain ⟨n, rfl⟩ := h v (List.mem_cons_self v l)
    have := ih (a + n) (fun x hx => h x (List.mem_cons_of_mem _ hx))
    simp [pySumGo, pyAdd, this, PyVal.toInt, add_assoc]

theorem filter_nonNull_filterMap_toInt (l : List PyVal) :
    (l.filter nonNull).filterMap PyVal.toInt = l.filterMap PyVal.toInt := by
  induction l with
  | nil => rfl
  | cons v l ih =>
    rcases v with _ | s | n <;>
      simp [PyVal.toInt, ih, nonNull_null, nonNull_str, nonNull_int]

theorem pySum_ints {l : List PyVal}
    (h : ∀ v ∈ l, v = .null ∨ ∃ n : ℤ, v = .int n) :
    pySum l = .ok (.int ((l.filterMap PyVal.toInt).sum)) := by
  unfold pySum
  rcases hf : l.filter nonNull with _ | ⟨v, vs⟩
  · have he : l.filterMap PyVal.toInt = [] := by
      rw [← filter_nonNull_filterMap_toInt, hf]
      simp
    rw [he]
    rfl
  · have hmem : ∀ x ∈ v :: vs, ∃ n : ℤ, x = .int n := by
      intro x hx
      have hx' : x ∈ l.filter nonNull := by rw [hf]; exact hx
      have hxl : x ∈ l := List.mem_of_mem_filter hx'
      have hxn : nonNull x = true := List.of_mem_filter hx'
      rcases h x hxl with h0 | h1
      · rw [h0] at hxn; exact absurd hxn (by simp [nonNull_null])
      · exact h1
    obtain ⟨n, rfl⟩ := hmem v (List.mem_cons_self v vs)
    have hgo := pySumGo_ints n (fun x hx => hmem x (List.mem_cons_of_mem _ hx))
    have hfm : l.filterMap PyVal.toInt = n :: vs.filterMap PyVal.toInt := by
      rw [← filter_nonNull_filterMap_toInt, hf]
      simp [PyVal.toInt]
    have hfin : pySumGo (PyVal.int n) vs =
        .ok (.int ((l.filterMap PyVal.toInt).sum)) := by
      rw [hgo, hfm]
      simp
    exact hfin

theorem pySumGo_all_str :
    ∀ {l : List PyVal} (t : String), (∀ v ∈ l, ∃ s, v = .str s) →
      ∃ u, pySumGo (.str t) l = .ok (.str u) := by
  intro l
  induction l with
  | nil => intro t h; exact ⟨t, rfl⟩
  | cons v l ih =>
    intro t h
    obtain ⟨s, rfl⟩ := h v (List.mem_cons_self v l)
    obtain ⟨u, hu⟩ := ih (t ++ s) (fun x hx => h x (List.mem_cons_of_mem _ hx))
    exact ⟨u, by simpa [pySumGo, pyAdd] using hu⟩

theorem pySumGo_str_nonstr_err :
    ∀ {l : List PyVal} (t : String), (∃ v ∈ l, ∀ s, v ≠ .str s) →
      pySumGo (.str t) l = .error .typeError := by
  intro l
  induction l with
  | nil => intro t h; obtain ⟨v, hv, _⟩ := h; simp at hv
  | cons v l ih =>
    intro t h
    obtain ⟨w, hw, hwn⟩ := h
    rcases v with _ | s | n
    · simp [pySumGo, pyAdd]
    · rcases List.mem_cons.mp hw with rfl | hw'
      · exact absurd rfl (hwn s)
      · exact ih (t ++ s) ⟨w, hw', hwn⟩
    · simp [pySumGo, pyAdd]

theorem pySumGo_int_str_err :
    ∀ {l : List PyVal} (m : ℤ) (s : String), .str s ∈ l →
      pySumGo (.int m) l = .error .typeError := by
  intro l
  induction l with
  | nil => intro m s h; simp at h
  | cons v l ih =>
    intro m s h
    rcases v with _ | t | n
    · simp [pySumGo, pyAdd]
    · simp [pySumGo, pyAdd]
    · rcases List.mem_cons.mp h with hv | h'
      · exact absurd hv (by simp)
      · simpa [pySumGo, pyAdd] using ih (m + n) s h'

theorem pySum_all_str {l : List PyVal}
    (hstr : ∀ v ∈ l.filter nonNull, ∃ s, v = .str s)
    (hne : l.filter nonNull ≠ []) :
    ∃ u, pySum l = .ok (.str u) := by
  unfold pySum
  rcases hf : l.filter nonNull with _ | ⟨v, vs⟩
  · exact absurd hf hne
  · rw [hf] at hstr
    obtain ⟨s, rfl⟩ := hstr v (List.mem_cons_self v vs)
    exact pySumGo_all_str s (fun x hx => hstr x (List.mem_cons_of_mem _ hx))

theorem pySum_mixed {l : List PyVal} (s : String) (n : ℤ)
    (hs : .str s ∈ l) (hn : .int n ∈ l) :
    pySum l = .error .typeError := by
  unfold pySum
  have hs' : PyVal.str s ∈ l.filter nonNull :=
    List.mem_filter.mpr ⟨hs, rfl⟩
  have hn' : PyVal.int n ∈ l.filter nonNull :=
    List.mem_filter.mpr ⟨hn, rfl⟩
  rcases hf : l.filter nonNull with _ | ⟨v, vs⟩
  · rw [hf] at hs'; simp at hs'
  · rw [hf] at hs' hn'
    rcases v with _ | t | m
    · have : nonNull PyVal.null = true := List.of_mem_filter (by rw [hf]; exact List.mem_cons_self _ _)
      simp [nonNull_null] at this
    · rcases List.mem_cons.mp hn' with h0 | h1
      · simp at h0
      · exact pySumGo_str_nonstr_err t ⟨.int n, h1, by simp⟩
    · rcases List.mem_cons.mp hs' with h0 | h1
      · simp at h0
      · exact pySumGo_int_str_err m s h1

theorem sum_filterMap_toInt_binary {l : List PyVal}
    (h : ∀ v ∈ l, v = .int 1 ∨ v = .int 0) :
    (l.filterMap PyVal.toInt).sum = ((l.filter (fun v => v = .int 1)).length : ℤ) := by
  induction l with
  | nil => rfl
  | cons v l ih =>
    have hl := ih (fun x hx => h x (List.mem_cons_of_mem _ hx))
    rcases h v (List.mem_cons_self v l) with rfl | rfl
    · simp [PyVal.toInt, hl, add_comm]
    · simp [PyVal.toInt, hl]

instance : IsTotal String strLe := ⟨fun a b => le_total a.data b.data⟩

instance : IsTrans String strLe := ⟨fun _ _ _ h1 h2 => le_trans h1 h2⟩

instance : IsAntisymm String strLe := ⟨fun a b h1 h2 => by
  have hd : a.data = b.data := le_antisymm h1 h2
  cases a; cases b; exact congrArg String.mk hd⟩

theorem strsOf_nil : strsOf [] = [] := rfl

theorem strsOf_cons_str (s : String) (l : List PyVal) :
    strsOf (.str s :: l) = s :: strsOf l := rfl

theorem strsOf_cons_null (l : List PyVal) : strsOf (.null :: l) = strsOf l := rfl

theorem strsOf_cons_int (n : ℤ) (l : List PyVal) :
    strsOf (.int n :: l) = strsOf l := rfl

theorem intsOf_cons_str (s : String) (l : List PyVal) :
    intsOf (.str s :: l) = intsOf l := rfl

theorem intsOf_cons_null (l : List PyVal) : intsOf (.null :: l) = intsOf l := rfl

theorem intsOf_cons_int (n : ℤ) (l : List PyVal) :
    intsOf (.int n :: l) = n :: intsOf l := rfl

theorem strsOf_length_le (ks : List PyVal) : (strsOf ks).length ≤ ks.length :=
  List.length_filterMap_le _ _

theorem intsOf_length_le (ks : List PyVal) : (intsOf ks).length ≤ ks.length :=
  List.length_filterMap_le _ _

theorem all_str_of_strsOf_length :
    ∀ {ks : List PyVal}, (strsOf ks).length = ks.length →
      ∀ k ∈ ks, ∃ s, k = .str s := by
  intro ks
  induction ks with
  | nil => intro h k hk; simp at hk
  | cons v l ih =>
    intro h k hk
    rcases v with _ | s | n
    · rw [strsOf_cons_null] at h
      have hle := strsOf_length_le l
      simp at h
      omega
    · rcases List.mem_cons.mp hk with rfl | hk'
      · exact ⟨s, rfl⟩
      · rw [strsOf_cons_str] at h
        simp at h
        exact ih h k hk'
    · rw [strsOf_cons_int] at h
      have hle := strsOf_length_le l
      simp at h
      omega

theorem all_int_of_intsOf_length :
    ∀ {ks : List PyVal}, (intsOf ks).length = ks.length →
      ∀ k ∈ ks, ∃ n : ℤ, k = .int n := by
  intro ks
  induction ks with
  | nil => intro h k hk; simp at hk
  | cons v l ih =>
    intro h k hk
    rcases v with _ | s | n
    · rw [intsOf_cons_null] at h
      have hle := intsOf_length_le l
      simp at h
      omega
    · rw [intsOf_cons_str] at h
      have hle := intsOf_length_le l
      simp at h
      omega
    · rcases List.mem_cons.mp hk with rfl | hk'
      · exact ⟨n, rfl⟩
      · rw [intsOf_cons_int] at h
        simp at h
        exact ih h k hk'

theorem strsOf_all_str :
    ∀ {ks : List PyVal}, (∀ k ∈ ks, ∃ s, k = .str s) →
      (strsOf ks).length = ks.length ∧ ks = (strsOf ks).map PyVal.str := by
  intro ks
  induction ks with
  | nil => intro h; exact ⟨rfl, rfl⟩
  | cons v l ih =>
    intro h
    obtain ⟨s, rfl⟩ := h v (List.mem_cons_self v l)
    obtain ⟨h1, h2⟩ := ih (fun x hx => h x (List.mem_cons_of_mem _ hx))
    rw [strsOf_cons_str]
    constructor
    · simp [h1]
    · rw [List.map_cons, ← h2]

theorem sortKeys_all_str {ks : List PyVal} (h : ∀ k ∈ ks, ∃ s, k = .str s) :
    sortKeys ks = .ok ((List.insertionSort strLe (strsOf ks)).map PyVal.str) := by
  unfold sortKeys
  rw [if_pos (strsOf_all_str h).1]

theorem sortKeys_perm {k1 k2 : List PyVal} (hp : List.Perm k1 k2) :
    sortKeys k1 = sortKeys k2 := by
  have hs : List.Perm (strsOf k1) (strsOf k2) := hp.filterMap _
  have hi : List.Perm (intsOf k1) (intsOf k2) := hp.filterMap _
  have hks : k1.length = k2.length := hp.length_eq
  unfold sortKeys
  rw [hs.length_eq, hi.length_eq, hks]
  by_cases h1 : (strsOf k2).length = k2.length
  · rw [if_pos h1, if_pos h1]
    have he : List.insertionSort strLe (strsOf k1) =
        List.insertionSort strLe (strsOf k2) :=
      List.eq_of_perm_of_sorted
        ((List.perm_insertionSort _ _).trans (hs.trans (List.perm_insertionSort _ _).symm))
        (List.sorted_insertionSort _ _) (List.sorted_insertionSort _ _)
    rw [he]
  · rw [if_neg h1, if_neg h1]
    by_cases h2 : (intsOf k2).length = k2.length
    · rw [if_pos h2, if_pos h2]
      have he : List.insertionSort (· ≤ ·) (intsOf k1) =
          List.insertionSort (· ≤ ·) (intsOf k2) :=
        List.eq_of_perm_of_sorted
          ((List.perm_insertionSort _ _).trans (hi.trans (List.perm_insertionSort _ _).symm))
          (List.sorted_insertionSort _ _) (List.sorted_insertionSort _ _)
      rw [he]
    · rw [if_neg h2, if_neg h2]

theorem sortKeys_ok_mem {ks out : List PyVal} (h : sortKeys ks = .ok out) :
    ∀ x ∈ ks, x ∈ out := by
  intro x hx
  unfold sortKeys at h
  by_cases h1 : (strsOf ks).length = ks.length
  · rw [if_pos h1] at h
    simp only [Except.ok.injEq] at h
    obtain ⟨s, rfl⟩ := all_str_of_strsOf_length h1 x hx
    have hsm : s ∈ strsOf ks := by
      simp only [strsOf, List.mem_filterMap]
      exact ⟨.str s, hx, rfl⟩
    rw [← h]
    exact List.mem_map_of_mem _ ((List.mem_insertionSort strLe).mpr hsm)
  · rw [if_neg h1] at h
    by_cases h2 : (intsOf ks).length = ks.length
    · rw [if_pos h2] at h
      simp only [Except.ok.injEq] at h
      obtain ⟨n, rfl⟩ := all_int_of_intsOf_length h2 x hx
      have hnm : n ∈ intsOf ks := by
        simp only [intsOf, List.mem_filterMap]
        exact ⟨.int n, hx, rfl⟩
      rw [← h]
      exact List.mem_map_of_mem _ ((List.mem_insertionSort _).mpr hnm)
    · rw [if_neg h2] at h
      simp at h

theorem pyReplace_P : pyReplace statusDict (.str "P") = .int 1 := rfl

theorem pyReplace_A : pyReplace statusDict (.str "A") = .int 0 := rfl

theorem group_pairs (df : DF) (k : PyVal) :
    ((df.rows.map (fun r => (r.getD 1 PyVal.null,
        pyReplace statusDict (r.getD (df.cols.length - 1) PyVal.null)))).filter
      (fun p => p.1 = k)).map Prod.snd =
    (df.rows.filter (fun r => r.getD 1 PyVal.null = k)).map
      (fun r => pyReplace statusDict (r.getD (df.cols.length - 1) PyVal.null)) := by
  rw [List.filter_map, List.map_map]
  rfl

theorem courses_pairs (df : DF) :
    (df.rows.map (fun r => (r.getD 1 PyVal.null,
        pyReplace statusDict (r.getD (df.cols.length - 1) PyVal.null)))).map Prod.fst =
    df.rows.map (fun r => r.getD 1 PyVal.null) := by
  rw [List.map_map]
  rfl

theorem mem_strsOf {s : String} {ks : List PyVal} (h : s ∈ strsOf ks) :
    .str s ∈ ks := by
  obtain ⟨a, ha, hfa⟩ := List.mem_filterMap.mp h
  rcases a with _ | t | n
  · simp at hfa
  · simp only [Option.some.injEq] at hfa
    rw [← hfa]
    exact ha
  · simp at hfa

theorem sums_phase (df : DF)
    (hs : ∀ r ∈ df.rows, r.getD 1 .null ≠ .null →
      r.getD (df.cols.length - 1) .null = .str "P" ∨
      r.getD (df.cols.length - 1) .null = .str "A")
    (keys : List PyVal) (hkeys : ∀ k ∈ keys, k ≠ .null) :
    mapME (fun k => pySum
      (List.map Prod.snd
        (List.filter (fun p => decide (p.1 = k))
          (List.map (fun r => (r.getD 1 PyVal.null,
            pyReplace statusDict (r.getD (df.cols.length - 1) PyVal.null)))
            df.rows)))) keys =
    .ok (keys.map (fun k => PyVal.int
      ((((df.rows.filter (fun r => r.getD 1 PyVal.null = k)).filter
        (fun r => r.getD (df.cols.length - 1) PyVal.null = PyVal.str "P")).length : ℤ)))) := by
  apply mapME_ok_of_forall
  intro k hk
  rw [group_pairs]
  have hbin : ∀ v ∈ (df.rows.filter (fun r => r.getD 1 PyVal.null = k)).map
      (fun r => pyReplace statusDict (r.getD (df.cols.length - 1) PyVal.null)),
      v = .int 1 ∨ v = .int 0 := by
    intro v hv
    obtain ⟨r, hrf, rfl⟩ := List.mem_map.mp hv
    have hrrows : r ∈ df.rows := List.mem_of_mem_filter hrf
    have hcourse : r.getD 1 PyVal.null = k := by
      have := List.of_mem_filter hrf
      simpa using this
    have hnn : r.getD 1 PyVal.null ≠ PyVal.null := by
      rw [hcourse]; exact hkeys k hk
    rcases hs r hrrows hnn with hP | hA
    · rw [hP, pyReplace_P]; exact Or.inl rfl
    · rw [hA, pyReplace_A]; exact Or.inr rfl
  rw [pySum_ints (fun v hv => Or.inr ((hbin v hv).elim (fun h => ⟨1, h⟩) (fun h => ⟨0, h⟩)))]
  rw [sum_filterMap_toInt_binary hbin]
  rw [List.filter_map, List.length_map]
  have hfc : List.filter
      ((fun v => decide (v = PyVal.int 1)) ∘
        (fun r => pyReplace statusDict (r.getD (df.cols.length - 1) PyVal.null)))
      (df.rows.filter (fun r => r.getD 1 PyVal.null = k)) =
      List.filter (fun r => r.getD (df.cols.length - 1) PyVal.null = PyVal.str "P")
      (df.rows.filter (fun r => r.getD 1 PyVal.null = k)) := by
    apply List.filter_congr
    intro r hrf
    have hrrows : r ∈ df.rows := List.mem_of_mem_filter hrf
    have hcourse : r.getD 1 PyVal.null = k := by
      have := List.of_mem_filter hrf
      simpa using this
    have hnn : r.getD 1 PyVal.null ≠ PyVal.null := by
      rw [hcourse]; exact hkeys k hk
    rcases hs r hrrows hnn with hP | hA
    · simp only [Function.comp_apply, hP, pyReplace_P]
    · simp only [Function.comp_apply, hA, pyReplace_A]
      rfl
  rw [hfc]

theorem counts_phase (df : DF)
    (hs : ∀ r ∈ df.rows, r.getD 1 .null ≠ .null →
      r.getD (df.cols.length - 1) .null = .str "P" ∨
      r.getD (df.cols.length - 1) .null = .str "A")
    (keys : List PyVal) (hkeys : ∀ k ∈ keys, k ≠ .null) :
    keys.map (fun k =>
      (List.filter nonNull
        (List.map Prod.snd
          (List.filter (fun p => decide (p.1 = k))
            (List.map (fun r => (r.getD 1 PyVal.null,
              pyReplace statusDict (r.getD (df.cols.length - 1) PyVal.null)))
              df.rows)))).length) =
    keys.map (fun k => (df.rows.filter (fun r => r.getD 1 PyVal.null = k)).length) := by
  apply List.map_congr_left
  intro k hk
  rw [group_pairs]
  have hall : List.filter nonNull
      ((df.rows.filter (fun r => r.getD 1 PyVal.null = k)).map
        (fun r => pyReplace statusDict (r.getD (df.cols.length - 1) PyVal.null))) =
      (df.rows.filter (fun r => r.getD 1 PyVal.null = k)).map
        (fun r => pyReplace statusDict (r.getD (df.cols.length - 1) PyVal.null)) := by
    apply List.filter_eq_self.mpr
    intro v hv
    obtain ⟨r, hrf, rfl⟩ := List.mem_map.mp hv
    have hrrows : r ∈ df.rows := List.mem_of_mem_filter hrf
    have hcourse : r.getD 1 PyVal.null = k := by
      have := List.of_mem_filter hrf
      simpa using this
    have hnn : r.getD 1 PyVal.null ≠ PyVal.null := by
      rw [hcourse]; exact hkeys k hk
    rcases hs r hrrows hnn with hP | hA
    · rw [hP, pyReplace_P]; exact nonNull_int 1
    · rw [hA, pyReplace_A]; exact nonNull_int 0
  rw [hall, List.length_map]

theorem mapME_map {α β γ : Type} {f : β → Except PyErr γ} {h : α → β} :
    ∀ l : List α, mapME f (l.map h) = mapME (fun a => f (h a)) l := by
  intro l
  induction l with
  | nil => rfl
  | cons a l ih => simp only [List.map_cons, mapME, ih]

theorem pcts_phase (df : DF) (keys : List PyVal)
    (hne : ∀ k ∈ keys, ∃ r ∈ df.rows, r.getD 1 PyVal.null = k) :
    mapME (fun sc =>
      match sc.1 with
      | PyVal.int m => if sc.2 = 0 then Except.error PyErr.zeroDivisionError
          else Except.ok (m, ((m : ℚ) / ((sc.2 : ℤ) : ℚ)) * 100)
      | _ => Except.error PyErr.typeError)
      ((keys.map (fun k => PyVal.int
          ((((df.rows.filter (fun r => r.getD 1 PyVal.null = k)).filter
            (fun r => r.getD (df.cols.length - 1) PyVal.null = PyVal.str "P")).length : ℤ)))).zip
       (keys.map (fun k => (df.rows.filter (fun r => r.getD 1 PyVal.null = k)).length))) =
    .ok (keys.map (fun k =>
      (((((df.rows.filter (fun r => r.getD 1 PyVal.null = k)).filter
          (fun r => r.getD (df.cols.length - 1) PyVal.null = PyVal.str "P")).length : ℤ)),
       (((((df.rows.filter (fun r => r.getD 1 PyVal.null = k)).filter
          (fun r => r.getD (df.cols.length - 1) PyVal.null = PyVal.str "P")).length : ℤ) : ℚ) /
        ((((df.rows.filter (fun r => r.getD 1 PyVal.null = k)).length : ℕ) : ℤ) : ℚ)) * 100))) := by
  rw [List.zip_map', mapME_map]
  apply mapME_ok_of_forall
  intro k hk
  obtain ⟨r, hr, hrk⟩ := hne k hk
  have hmem : r ∈ df.rows.filter (fun r => r.getD 1 PyVal.null = k) :=
    List.mem_filter.mpr ⟨hr, by simpa using hrk⟩
  have hpos : (df.rows.filter (fun r => r.getD 1 PyVal.null = k)).length ≠ 0 := by
    have := List.length_pos.mpr (List.ne_nil_of_mem hmem)
    omega
  show (if (df.rows.filter (fun r => r.getD 1 PyVal.null = k)).length = 0
      then Except.error PyErr.zeroDivisionError
      else Except.ok
        (((((df.rows.filter (fun r => r.getD 1 PyVal.null = k)).filter
          (fun r => r.getD (df.cols.length - 1) PyVal.null = PyVal.str "P")).length : ℤ)),
         ((((((df.rows.filter (fun r => r.getD 1 PyVal.null = k)).filter
          (fun r => r.getD (df.cols.length - 1) PyVal.null = PyVal.str "P")).length : ℤ)) : ℚ) /
          ((((df.rows.filter (fun r => r.getD 1 PyVal.null = k)).length : ℕ) : ℤ) : ℚ)) * 100)) = _
  rw [if_neg hpos]

/-- C1 (corrected).  The claim says `aggregate` works for every UnifiedTable;
in fact a table whose selected labels coincide (e.g. any 2-column table) raises
a pandas duplicate-Grouper error, a null second header cell makes line 90 call
`groupby(None)` which raises TypeError, and course cells holding ints mixed
with strings break the group-key sort.  Corrected: for a table with at least
two columns, a non-null second column label distinct from the last column
label, no integer course cells, and every status of a non-null-course row in
{"P","A"}, `aggregateDF` returns exactly the spec-side aggregation: groups
keyed by the column-1 value, presentCount the sum of the mapped statuses,
lectureCount the group size, and percentage
100 * presentCount / lectureCount. -/
theorem C1_aggregate (df : DF)
    (h2 : 2 ≤ df.cols.length)
    (hnl : df.cols.getD 1 .null ≠ .null)
    (hne : df.cols.getD 1 .null ≠ df.cols.getD (df.cols.length - 1) .null)
    (hc : ∀ r ∈ df.rows, (r.getD 1 .null).isInt = false)
    (hs : ∀ r ∈ df.rows, r.getD 1 .null ≠ .null →
      r.getD (df.cols.length - 1) .null = .str "P" ∨
      r.getD (df.cols.length - 1) .null = .str "A") :
    aggregateDF df = .ok (specAggregate df) := by
  simp only [aggregateDF]
  rw [if_neg (not_lt.mpr h2), if_neg hnl, if_neg hne, courses_pairs]
  have hKstr : ∀ k ∈ ((df.rows.map (fun r => r.getD 1 PyVal.null)).filter nonNull).dedup,
      ∃ s, k = .str s := by
    intro k hk
    have hkf := List.mem_dedup.mp hk
    have hknn : nonNull k = true := List.of_mem_filter hkf
    have hkm : k ∈ df.rows.map (fun r => r.getD 1 PyVal.null) :=
      List.mem_of_mem_filter hkf
    obtain ⟨r, hr, hrk⟩ := List.mem_map.mp hkm
    have hint := hc r hr
    rw [hrk] at hint
    rcases k with _ | s | n
    · rw [nonNull_null] at hknn
      exact absurd hknn (by simp)
    · exact ⟨s, rfl⟩
    · exact absurd hint (by simp [PyVal.isInt])
  simp only [sortKeys_all_str hKstr]
  have hkeysnn : ∀ k ∈ (List.insertionSort strLe
      (strsOf ((df.rows.map (fun r => r.getD 1 PyVal.null)).filter nonNull).dedup)).map PyVal.str,
      k ≠ PyVal.null := by
    intro k hk
    obtain ⟨s, _, rfl⟩ := List.mem_map.mp hk
    simp
  simp only [sums_phase df hs _ hkeysnn]
  simp only [counts_phase df hs _ hkeysnn]
  have hkeysr : ∀ k ∈ (List.insertionSort strLe
      (strsOf ((df.rows.map (fun r => r.getD 1 PyVal.null)).filter nonNull).dedup)).map PyVal.str,
      ∃ r ∈ df.rows, r.getD 1 PyVal.null = k := by
    intro k hk
    obtain ⟨s, hsmem, rfl⟩ := List.mem_map.mp hk
    have hkKD : PyVal.str s ∈
        ((df.rows.map (fun r => r.getD 1 PyVal.null)).filter nonNull).dedup :=
      mem_strsOf ((List.mem_insertionSort strLe).mp hsmem)
    have hkm : PyVal.str s ∈ df.rows.map (fun r => r.getD 1 PyVal.null) :=
      List.mem_of_mem_filter (List.mem_dedup.mp hkKD)
    obtain ⟨r, hr, hrk⟩ := List.mem_map.mp hkm
    exact ⟨r, hr, hrk⟩
  simp only [pcts_phase df _ hkeysr]
  simp only [List.zip_map', List.zipWith_map_right, List.zipWith_same]
  simp only [specAggregate, sortedCourses, groupRows]
  rw [Except.ok.injEq]
  apply List.map_congr_left
  intro k hk
  simp only [CourseStats.mk.injEq, eq_self_iff_true, true_and, and_true]
  push_cast
  ring

deriving instance DecidableEq for Except

/-- C1 counterexample: a 2-column table, where column index 1 and the last
column are the same label, makes `df.groupby` receive the grouping column
twice and raise (modelled as `.valueError`), so the claim's "for every
UnifiedTable" fails. -/
theorem C1_counterexample :
    aggregateDF ⟨[.str "H1", .str "H2"], [[.str "r", .str "P"]]⟩ =
      .error .valueError := by decide

def c1df : DF :=
  ⟨[.str "Sr", .str "Course", .str "S1"],
   [[.str "1", .str "M", .str "P"],
    [.str "2", .str "N", .str "A"],
    [.str "3", .str "M", .str "P"]]⟩

/-- C1 witness: the corrected theorem applied to a concrete 3-column table
(M:P, N:A, M:P), with every hypothesis discharged by evaluation. -/
theorem C1_witness :
    2 ≤ c1df.cols.length ∧
    c1df.cols.getD 1 .null ≠ .null ∧
    c1df.cols.getD 1 .null ≠ c1df.cols.getD (c1df.cols.length - 1) .null ∧
    (∀ r ∈ c1df.rows, (r.getD 1 .null).isInt = false) ∧
    (∀ r ∈ c1df.rows, r.getD 1 .null ≠ .null →
      r.getD (c1df.cols.length - 1) .null = .str "P" ∨
      r.getD (c1df.cols.length - 1) .null = .str "A") ∧
    aggregateDF c1df = .ok (specAggregate c1df) :=
  ⟨by decide, by decide, by decide, by decide, by decide,
   C1_aggregate c1df (by decide) (by decide) (by decide) (by decide) (by decide)⟩

theorem getD_map_lt {α β : Type} (f : α → β) (d : β) (d' : α) :
    ∀ {l : List α} {i : ℕ}, i < l.length → (l.map f).getD i d = f (l.getD i d') := by
  intro l
  induction l with
  | nil => intro i hi; simp at hi
  | cons a l ih =>
    intro i hi
    cases i with
    | zero => rfl
    | succ i => simpa using ih (by simpa using hi)

theorem getD_zip_lt {α β : Type} (d1 : α) (d2 : β) :
    ∀ {l1 : List α} {l2 : List β} {i : ℕ}, i < l1.length → i < l2.length →
      (l1.zip l2).getD i (d1, d2) = (l1.getD i d1, l2.getD i d2) := by
  intro l1
  induction l1 with
  | nil => intro l2 i hi; simp at hi
  | cons a l1 ih =>
    intro l2 i h1 h2
    cases l2 with
    | nil => simp at h2
    | cons b l2 =>
      cases i with
      | zero => rfl
      | succ i => simpa using ih (by simpa using h1) (by simpa using h2)

theorem mem_zipWith_getD {α β γ : Type} (f : α → β → γ) (d1 : α) (d2 : β) :
    ∀ {l1 : List α} {l2 : List β} {x : γ}, x ∈ List.zipWith f l1 l2 →
      ∃ i, i < l1.length ∧ i < l2.length ∧ x = f (l1.getD i d1) (l2.getD i d2) := by
  intro l1
  induction l1 with
  | nil => intro l2 x hx; simp at hx
  | cons a l1 ih =>
    intro l2 x hx
    cases l2 with
    | nil => simp at hx
    | cons b l2 =>
      rcases List.mem_cons.mp hx with rfl | hx'
      · exact ⟨0, by simp, by simp, rfl⟩
      · obtain ⟨i, hi1, hi2, he⟩ := ih hx'
        exact ⟨i + 1, by simpa using hi1, by simpa using hi2, by simpa using he⟩

theorem getD_of_mem {α : Type} (d : α) :
    ∀ {l : List α} {x : α}, x ∈ l → ∃ i, i < l.length ∧ l.getD i d = x := by
  intro l
  induction l with
  | nil => intro x hx; simp at hx
  | cons a l ih =>
    intro x hx
    rcases List.mem_cons.mp hx with rfl | hx'
    · exact ⟨0, by simp, rfl⟩
    · obtain ⟨i, hi, he⟩ := ih hx'
      exact ⟨i + 1, by simpa using hi, by simpa using he⟩

theorem group_binary (df : DF)
    (hvocab : ∀ r ∈ df.rows,
      r.getD (df.cols.length - 1) .null = .str "P" ∨
      r.getD (df.cols.length - 1) .null = .str "A")
    (k : PyVal) :
    ∀ v ∈ List.map Prod.snd (List.filter (fun p => decide (p.1 = k))
      (List.map (fun r => (r.getD 1 PyVal.null,
        pyReplace statusDict (r.getD (df.cols.length - 1) PyVal.null))) df.rows)),
      v = .int 1 ∨ v = .int 0 := by
  intro v hv
  obtain ⟨p, hp, rfl⟩ := List.mem_map.mp hv
  obtain ⟨r, hr, rfl⟩ := List.mem_map.mp (List.mem_of_mem_filter hp)
  show pyReplace statusDict (r.getD (df.cols.length - 1) PyVal.null) = _ ∨
    pyReplace statusDict (r.getD (df.cols.length - 1) PyVal.null) = _
  rcases hvocab r hr with hP | hA
  · rw [hP, pyReplace_P]; exact Or.inl rfl
  · rw [hA, pyReplace_A]; exact Or.inr rfl

/-- C6 (confirmed).  When every status cell is "P" or "A", every CourseStats
that `aggregateDF` returns satisfies presentCount <= lectureCount and
0 <= percentage <= 100. -/
theorem C6_bounds (df : DF) (stats : List CourseStats)
    (hok : aggregateDF df = .ok stats)
    (hvocab : ∀ r ∈ df.rows,
      r.getD (df.cols.length - 1) .null = .str "P" ∨
      r.getD (df.cols.length - 1) .null = .str "A") :
    ∀ s ∈ stats, s.sumPresent ≤ s.countLecture ∧
      0 ≤ s.percentage ∧ s.percentage ≤ 100 := by
  intro s hsmem
  simp only [aggregateDF] at hok
  by_cases hlt : df.cols.length < 2
  · rw [if_pos hlt] at hok; exact absurd hok (by simp)
  rw [if_neg hlt] at hok
  by_cases hnl : df.cols.getD 1 PyVal.null = PyVal.null
  · rw [if_pos hnl] at hok; exact absurd hok (by simp)
  rw [if_neg hnl] at hok
  by_cases hcc : df.cols.getD 1 PyVal.null = df.cols.getD (df.cols.length - 1) PyVal.null
  · rw [if_pos hcc] at hok; exact absurd hok (by simp)
  rw [if_neg hcc] at hok
  rcases hsk : sortKeys (((df.rows.map (fun r => (r.getD 1 PyVal.null,
      pyReplace statusDict (r.getD (df.cols.length - 1) PyVal.null)))).map
        Prod.fst).filter nonNull).dedup with e | keys
  · simp only [hsk] at hok; exact absurd hok (by simp)
  simp only [hsk] at hok
  rcases hsm : mapME (fun k => pySum (List.map Prod.snd
      (List.filter (fun p => decide (p.1 = k))
        (List.map (fun r => (r.getD 1 PyVal.null,
          pyReplace statusDict (r.getD (df.cols.length - 1) PyVal.null)))
          df.rows)))) keys with e | sums
  · simp only [hsm] at hok; exact absurd hok (by simp)
  simp only [hsm] at hok
  rcases hpc : mapME (fun sc =>
      match sc.1 with
      | PyVal.int m => if sc.2 = 0 then Except.error PyErr.zeroDivisionError
          else Except.ok (m, ((m : ℚ) / ((sc.2 : ℤ) : ℚ)) * 100)
      | _ => Except.error PyErr.typeError)
      (sums.zip (keys.map (fun k =>
        (List.filter nonNull (List.map Prod.snd
          (List.filter (fun p => decide (p.1 = k))
            (List.map (fun r => (r.getD 1 PyVal.null,
              pyReplace statusDict (r.getD (df.cols.length - 1) PyVal.null)))
              df.rows)))).length))) with e | pcts
  · simp only [hpc] at hok; exact absurd hok (by simp)
  simp only [hpc] at hok
  rw [Except.ok.injEq] at hok
  subst hok
  obtain ⟨i, hik, hiz, hseq⟩ :=
    mem_zipWith_getD _ PyVal.null ((0 : ℕ), ((0 : ℤ), (0 : ℚ))) hsmem
  have hlen_s : sums.length = keys.length := mapME_ok_length hsm
  have hic : i < (keys.map (fun k =>
      (List.filter nonNull (List.map Prod.snd
        (List.filter (fun p => decide (p.1 = k))
          (List.map (fun r => (r.getD 1 PyVal.null,
            pyReplace statusDict (r.getD (df.cols.length - 1) PyVal.null)))
            df.rows)))).length)).length := by
    rw [List.length_map]
    exact hik
  have hip : i < pcts.length := by
    rw [List.length_zip] at hiz
    omega
  have hizc : i < (sums.zip (keys.map (fun k =>
      (List.filter nonNull (List.map Prod.snd
        (List.filter (fun p => decide (p.1 = k))
          (List.map (fun r => (r.getD 1 PyVal.null,
            pyReplace statusDict (r.getD (df.cols.length - 1) PyVal.null)))
            df.rows)))).length))).length := by
    rw [List.length_zip, List.length_map]
    omega
  have hdiv := mapME_ok_getD (PyVal.null, (0 : ℕ)) ((0 : ℤ), (0 : ℚ)) hpc i hizc
  rw [getD_zip_lt _ _ (by omega) (by rwa [List.length_map] at hic ⊢)] at hdiv
  rw [getD_zip_lt _ _ (by omega) hip] at hseq
  set k := keys.getD i PyVal.null with hkdef
  have hcv : (keys.map (fun k =>
      (List.filter nonNull (List.map Prod.snd
        (List.filter (fun p => decide (p.1 = k))
          (List.map (fun r => (r.getD 1 PyVal.null,
            pyReplace statusDict (r.getD (df.cols.length - 1) PyVal.null)))
            df.rows)))).length)).getD i 0 =
      (List.filter nonNull (List.map Prod.snd
        (List.filter (fun p => decide (p.1 = k))
          (List.map (fun r => (r.getD 1 PyVal.null,
            pyReplace statusDict (r.getD (df.cols.length - 1) PyVal.null)))
            df.rows)))).length := by
    rw [getD_map_lt _ _ PyVal.null (by rwa [List.length_map] at hic)]
  rw [hcv] at hdiv
  have hsum := mapME_ok_getD PyVal.null PyVal.null hsm i (by rwa [List.length_map] at hic)
  have hbin := group_binary df hvocab k
  have hallnn : List.filter nonNull (List.map Prod.snd
      (List.filter (fun p => decide (p.1 = k))
        (List.map (fun r => (r.getD 1 PyVal.null,
          pyReplace statusDict (r.getD (df.cols.length - 1) PyVal.null)))
          df.rows))) =
      List.map Prod.snd (List.filter (fun p => decide (p.1 = k))
        (List.map (fun r => (r.getD 1 PyVal.null,
          pyReplace statusDict (r.getD (df.cols.length - 1) PyVal.null)))
          df.rows)) := by
    apply List.filter_eq_self.mpr
    intro v hv
    rcases hbin v hv with rfl | rfl
    · exact nonNull_int 1
    · exact nonNull_int 0
  rw [pySum_ints (fun v hv => Or.inr ((hbin v hv).elim
      (fun h => ⟨1, h⟩) (fun h => ⟨0, h⟩)))] at hsum
  rw [sum_filterMap_toInt_binary hbin] at hsum
  rw [hallnn] at hdiv
  set g := List.map Prod.snd (List.filter (fun p => decide (p.1 = k))
      (List.map (fun r => (r.getD 1 PyVal.null,
        pyReplace statusDict (r.getD (df.cols.length - 1) PyVal.null)))
        df.rows)) with hgdef
  have hsv : sums.getD i PyVal.null =
      PyVal.int ((g.filter (fun v => v = PyVal.int 1)).length : ℤ) := by
    have := hsum.symm
    simpa using this
  simp only [hsv] at hdiv
  have hc1 : (g.filter (fun v => v = PyVal.int 1)).length ≤ g.length :=
    List.length_filter_le _ _
  by_cases hz : g.length = 0
  · rw [if_pos hz] at hdiv
    exact absurd hdiv (by simp)
  rw [if_neg hz] at hdiv
  simp only [Except.ok.injEq] at hdiv
  have hcv2 : (keys.map (fun k =>
      (List.filter nonNull (List.map Prod.snd
        (List.filter (fun p => decide (p.1 = k))
          (List.map (fun r => (r.getD 1 PyVal.null,
            pyReplace statusDict (r.getD (df.cols.length - 1) PyVal.null)))
            df.rows)))).length)).getD i 0 = g.length := by
    rw [hcv, hallnn]
  rw [hseq, ← hdiv, hcv2]
  refine ⟨?_, ?_, ?_⟩
  · show ((g.filter (fun v => v = PyVal.int 1)).length : ℤ) ≤ ((g.length : ℕ) : ℤ)
    exact_mod_cast hc1
  · show (0 : ℚ) ≤ (((g.filter (fun v => v = PyVal.int 1)).length : ℤ) : ℚ) /
      (((g.length : ℕ) : ℤ) : ℚ) * 100
    apply mul_nonneg
    · apply div_nonneg
      · positivity
      · positivity
    · norm_num
  · show (((g.filter (fun v => v = PyVal.int 1)).length : ℤ) : ℚ) /
      (((g.length : ℕ) : ℤ) : ℚ) * 100 ≤ 100
    have hcpos : (0 : ℚ) < (((g.length : ℕ) : ℤ) : ℚ) := by
      have : 0 < g.length := Nat.pos_of_ne_zero hz
      exact_mod_cast this
    have hdle : (((g.filter (fun v => v = PyVal.int 1)).length : ℤ) : ℚ) /
        (((g.length : ℕ) : ℤ) : ℚ) ≤ 1 := by
      rw [div_le_one hcpos]
      exact_mod_cast hc1
    calc (((g.filter (fun v => v = PyVal.int 1)).length : ℤ) : ℚ) /
        (((g.length : ℕ) : ℤ) : ℚ) * 100 ≤ 1 * 100 :=
          mul_le_mul_of_nonneg_right hdle (by norm_num)
      _ = 100 := by norm_num

theorem c1df_aggregate_eval :
    aggregateDF c1df = .ok [⟨.str "M", 2, 2, 100⟩, ⟨.str "N", 0, 1, 0⟩] := by
  simp +decide [aggregateDF, c1df, sortKeys, strsOf, intsOf, strLe, mapME, pySum,
    pySumGo, pyAdd, pyReplace, statusDict, nonNull, List.insertionSort,
    List.orderedInsert]

/-- C6 witness: the theorem applied to the concrete table (M:P, N:A, M:P),
whose aggregation evaluates to M = (2,2,100), N = (0,1,0). -/
theorem C6_witness :
    aggregateDF c1df = .ok [⟨.str "M", 2, 2, 100⟩, ⟨.str "N", 0, 1, 0⟩] ∧
    (∀ r ∈ c1df.rows, r.getD (c1df.cols.length - 1) .null = .str "P" ∨
      r.getD (c1df.cols.length - 1) .null = .str "A") ∧
    ∀ s ∈ [(⟨.str "M", 2, 2, 100⟩ : CourseStats), ⟨.str "N", 0, 1, 0⟩],
      s.sumPresent ≤ s.countLecture ∧ 0 ≤ s.percentage ∧ s.percentage ≤ 100 :=
  ⟨c1df_aggregate_eval, by decide,
   C6_bounds c1df _ c1df_aggregate_eval (by decide)⟩

theorem pySum_perm_rel {l1 l2 : List PyVal} (hp : List.Perm l1 l2) :
    pySum l1 = pySum l2 ∨
    (∃ a b, pySum l1 = .ok (.str a) ∧ pySum l2 = .ok (.str b)) := by
  by_cases hstr : ∃ s, PyVal.str s ∈ l1
  · obtain ⟨s, hs⟩ := hstr
    by_cases hint : ∃ n : ℤ, PyVal.int n ∈ l1
    · obtain ⟨n, hn⟩ := hint
      left
      rw [pySum_mixed s n hs hn,
        pySum_mixed s n (hp.mem_iff.mp hs) (hp.mem_iff.mp hn)]
    · right
      have hall1 : ∀ v ∈ l1.filter nonNull, ∃ t, v = PyVal.str t := by
        intro v hv
        have hvl := List.mem_of_mem_filter hv
        have hvn : nonNull v = true := List.of_mem_filter hv
        rcases v with _ | t | n
        · rw [nonNull_null] at hvn; exact absurd hvn (by simp)
        · exact ⟨t, rfl⟩
        · exact absurd ⟨n, hvl⟩ hint
      have hall2 : ∀ v ∈ l2.filter nonNull, ∃ t, v = PyVal.str t := by
        intro v hv
        have hvl := hp.mem_iff.mpr (List.mem_of_mem_filter hv)
        have hvn : nonNull v = true := List.of_mem_filter hv
        rcases v with _ | t | n
        · rw [nonNull_null] at hvn; exact absurd hvn (by simp)
        · exact ⟨t, rfl⟩
        · exact absurd ⟨n, hvl⟩ hint
      obtain ⟨u1, h1⟩ := pySum_all_str hall1
        (List.ne_nil_of_mem (List.mem_filter.mpr ⟨hs, rfl⟩))
      obtain ⟨u2, h2⟩ := pySum_all_str hall2
        (List.ne_nil_of_mem (List.mem_filter.mpr ⟨hp.mem_iff.mp hs, rfl⟩))
      exact ⟨u1, u2, h1, h2⟩
  · left
    have hall1 : ∀ v ∈ l1, v = PyVal.null ∨ ∃ n : ℤ, v = PyVal.int n := by
      intro v hv
      rcases v with _ | t | n
      · exact Or.inl rfl
      · exact absurd ⟨t, hv⟩ hstr
      · exact Or.inr ⟨n, rfl⟩
    have hall2 : ∀ v ∈ l2, v = PyVal.null ∨ ∃ n : ℤ, v = PyVal.int n := by
      intro v hv
      rcases v with _ | t | n
      · exact Or.inl rfl
      · exact absurd ⟨t, hp.mem_iff.mpr hv⟩ hstr
      · exact Or.inr ⟨n, rfl⟩
    rw [pySum_ints hall1, pySum_ints hall2, (hp.filterMap PyVal.toInt).sum_eq]

theorem mapME_rel_congr {f1 f2 : PyVal → Except PyErr PyVal} :
    ∀ {keys : List PyVal},
    (∀ k ∈ keys, f1 k = f2 k ∨ (∃ a b, f1 k = .ok (.str a) ∧ f2 k = .ok (.str b))) →
    mapME f1 keys = mapME f2 keys ∨
    (∃ o1 o2, mapME f1 keys = .ok o1 ∧ mapME f2 keys = .ok o2 ∧
      List.Forall₂ (fun a b => a = b ∨ ∃ u v, a = .str u ∧ b = .str v) o1 o2) := by
  intro keys
  induction keys with
  | nil => intro h; right; exact ⟨[], [], rfl, rfl, List.Forall₂.nil⟩
  | cons k ks ih =>
    intro h
    have hk := h k (List.mem_cons_self k ks)
    have hih := ih (fun x hx => h x (List.mem_cons_of_mem _ hx))
    rcases hk with heq | ⟨a, b, ha, hb⟩
    · rcases hf2 : f2 k with e | v
      · left
        simp only [mapME, heq, hf2]
      · rcases hih with hteq | ⟨o1, o2, ho1, ho2, hrel⟩
        · left
          simp only [mapME, heq, hf2, hteq]
        · right
          refine ⟨v :: o1, v :: o2, ?_, ?_, ?_⟩
          · simp only [mapME, heq, hf2, ho1]
          · simp only [mapME, hf2, ho2]
          · exact List.Forall₂.cons (Or.inl rfl) hrel
    · rcases hih with hteq | ⟨o1, o2, ho1, ho2, hrel⟩
      · rcases ht2 : mapME f2 ks with e | o
        · left
          have ht1 : mapME f1 ks = Except.error e := hteq.trans ht2
          simp only [mapME, ha, hb, ht1, ht2]
        · right
          have ht1 : mapME f1 ks = Except.ok o := hteq.trans ht2
          refine ⟨PyVal.str a :: o, PyVal.str b :: o, ?_, ?_, ?_⟩
          · simp only [mapME, ha, ht1]
          · simp only [mapME, hb, ht2]
          · refine List.Forall₂.cons (Or.inr ⟨a, b, rfl, rfl⟩) ?_
            exact List.forall₂_same.mpr (fun x _ => Or.inl rfl)
      · right
        refine ⟨PyVal.str a :: o1, PyVal.str b :: o2, ?_, ?_, ?_⟩
        · simp only [mapME, ha, ho1]
        · simp only [mapME, hb, ho2]
        · exact List.Forall₂.cons (Or.inr ⟨a, b, rfl, rfl⟩) hrel

theorem mapME_div_congr {sums1 sums2 : List PyVal}
    (h : List.Forall₂ (fun a b => a = b ∨ ∃ u v, a = .str u ∧ b = .str v) sums1 sums2) :
    ∀ counts : List ℕ,
    mapME (fun sc =>
      match sc.1 with
      | PyVal.int m => if sc.2 = 0 then Except.error PyErr.zeroDivisionError
          else Except.ok (m, ((m : ℚ) / ((sc.2 : ℤ) : ℚ)) * 100)
      | _ => Except.error PyErr.typeError) (sums1.zip counts) =
    mapME (fun sc =>
      match sc.1 with
      | PyVal.int m => if sc.2 = 0 then Except.error PyErr.zeroDivisionError
          else Except.ok (m, ((m : ℚ) / ((sc.2 : ℤ) : ℚ)) * 100)
      | _ => Except.error PyErr.typeError) (sums2.zip counts) := by
  induction h with
  | nil => intro counts; rfl
  | @cons a b l1 l2 hab htail ih =>
    intro counts
    cases counts with
    | nil => rfl
    | cons c cs =>
      rcases hab with rfl | ⟨u, v, rfl, rfl⟩
      · rcases a with _ | u | m
        · rfl
        · rfl
        · by_cases hc : c = 0
          · simp only [List.zip_cons_cons, mapME, if_pos hc]
          · simp only [List.zip_cons_cons, mapME, if_neg hc]
            rw [show List.zipWith Prod.mk l1 cs = l1.zip cs from rfl,
              show List.zipWith Prod.mk l2 cs = l2.zip cs from rfl, ih cs]
      · rfl

/-- C7 (confirmed).  `aggregateDF` is invariant under every permutation of
the data rows — in particular under permutations that only reorder rows
within one course group, which is what the claim asks: group keys are sorted,
group sizes are permutation-invariant, and the Python sum of a group's mapped
statuses is determined by the multiset of its values (all-string groups
concatenate in key-grouped order, which `groupby` preserves per group; a
mixed group fails either way; integer groups add commutatively). -/
theorem C7_perm (cols : List PyVal) (rows1 rows2 : List (List PyVal))
    (hp : List.Perm rows1 rows2) :
    aggregateDF ⟨cols, rows1⟩ = aggregateDF ⟨cols, rows2⟩ := by
  simp only [aggregateDF]
  by_cases hlt : cols.length < 2
  · rw [if_pos hlt, if_pos hlt]
  rw [if_neg hlt, if_neg hlt]
  by_cases hnl : cols.getD 1 PyVal.null = PyVal.null
  · rw [if_pos hnl, if_pos hnl]
  rw [if_neg hnl, if_neg hnl]
  by_cases hcc : cols.getD 1 PyVal.null = cols.getD (cols.length - 1) PyVal.null
  · rw [if_pos hcc, if_pos hcc]
  rw [if_neg hcc, if_neg hcc]
  have hpairs : List.Perm
      (rows1.map (fun r => (r.getD 1 PyVal.null,
        pyReplace statusDict (r.getD (cols.length - 1) PyVal.null))))
      (rows2.map (fun r => (r.getD 1 PyVal.null,
        pyReplace statusDict (r.getD (cols.length - 1) PyVal.null)))) := hp.map _
  have hK : List.Perm
      (((rows1.map (fun r => (r.getD 1 PyVal.null,
        pyReplace statusDict (r.getD (cols.length - 1) PyVal.null)))).map
          Prod.fst).filter nonNull).dedup
      (((rows2.map (fun r => (r.getD 1 PyVal.null,
        pyReplace statusDict (r.getD (cols.length - 1) PyVal.null)))).map
          Prod.fst).filter nonNull).dedup :=
    ((hpairs.map Prod.fst).filter nonNull).dedup
  rw [sortKeys_perm hK]
  rcases hsk2 : sortKeys
      (((rows2.map (fun r => (r.getD 1 PyVal.null,
        pyReplace statusDict (r.getD (cols.length - 1) PyVal.null)))).map
          Prod.fst).filter nonNull).dedup with e | keys
  · simp only [hsk2]
  simp only [hsk2]
  have hrel : ∀ k ∈ keys,
      pySum (List.map Prod.snd
        (List.filter (fun p => decide (p.1 = k))
          (List.map (fun r => (r.getD 1 PyVal.null,
            pyReplace statusDict (r.getD (cols.length - 1) PyVal.null))) rows1))) =
      pySum (List.map Prod.snd
        (List.filter (fun p => decide (p.1 = k))
          (List.map (fun r => (r.getD 1 PyVal.null,
            pyReplace statusDict (r.getD (cols.length - 1) PyVal.null))) rows2))) ∨
      (∃ a b,
        pySum (List.map Prod.snd
          (List.filter (fun p => decide (p.1 = k))
            (List.map (fun r => (r.getD 1 PyVal.null,
              pyReplace statusDict (r.getD (cols.length - 1) PyVal.null))) rows1))) =
          .ok (.str a) ∧
        pySum (List.map Prod.snd
          (List.filter (fun p => decide (p.1 = k))
            (List.map (fun r => (r.getD 1 PyVal.null,
              pyReplace statusDict (r.getD (cols.length - 1) PyVal.null))) rows2))) =
          .ok (.str b)) := by
    intro k hk
    exact pySum_perm_rel ((hpairs.filter (fun p => decide (p.1 = k))).map Prod.snd)
  have hcounts :
      keys.map (fun k =>
        (List.filter nonNull (List.map Prod.snd
          (List.filter (fun p => decide (p.1 = k))
            (List.map (fun r => (r.getD 1 PyVal.null,
              pyReplace statusDict (r.getD (cols.length - 1) PyVal.null)))
              rows1)))).length) =
      keys.map (fun k =>
        (List.filter nonNull (List.map Prod.snd
          (List.filter (fun p => decide (p.1 = k))
            (List.map (fun r => (r.getD 1 PyVal.null,
              pyReplace statusDict (r.getD (cols.length - 1) PyVal.null)))
              rows2)))).length) :=
    List.map_congr_left (fun k _ =>
      (((hpairs.filter (fun p => decide (p.1 = k))).map Prod.snd).filter
        nonNull).length_eq)
  rcases mapME_rel_congr hrel with heq | ⟨o1, o2, ho1, ho2, hrel2⟩
  · rw [heq, hcounts]
  · simp only [ho1, ho2, hcounts]
    rw [mapME_div_congr hrel2]

theorem pyReplace_other {s : String} (hP : s ≠ "P") (hA : s ≠ "A") :
    pyReplace statusDict (.str s) = .str s := by
  simp [pyReplace, statusDict, List.find?, Ne.symm hP, Ne.symm hA, hP, hA]

/-- C8 (corrected).  The claim is false as stated: a status symbol outside
{"P","A"} sitting in a row whose course cell is null is silently dropped by
`groupby(dropna=True)` and no error surfaces (see the counterexample).
Corrected: a bad status symbol in a row whose course cell is a (non-null)
string does surface an error — the unmapped string poisons that group's
Python sum with a str+int `TypeError` — so aggregation fails rather than
silently producing a corrupted percentage. -/
theorem C8_bad_symbol (df : DF) (r : List PyVal) (c s : String)
    (hr : r ∈ df.rows)
    (hcourse : r.getD 1 .null = .str c)
    (hstatus : r.getD (df.cols.length - 1) .null = .str s)
    (hP : s ≠ "P") (hA : s ≠ "A") :
    ∃ e, aggregateDF df = .error e := by
  rcases hagg : aggregateDF df with e | stats
  · exact ⟨e, rfl⟩
  exfalso
  have hok := hagg
  simp only [aggregateDF] at hok
  by_cases hlt : df.cols.length < 2
  · rw [if_pos hlt] at hok; exact absurd hok (by simp)
  rw [if_neg hlt] at hok
  by_cases hnl : df.cols.getD 1 PyVal.null = PyVal.null
  · rw [if_pos hnl] at hok; exact absurd hok (by simp)
  rw [if_neg hnl] at hok
  by_cases hcc : df.cols.getD 1 PyVal.null = df.cols.getD (df.cols.length - 1) PyVal.null
  · rw [if_pos hcc] at hok; exact absurd hok (by simp)
  rw [if_neg hcc] at hok
  rcases hsk : sortKeys (((df.rows.map (fun r => (r.getD 1 PyVal.null,
      pyReplace statusDict (r.getD (df.cols.length - 1) PyVal.null)))).map
        Prod.fst).filter nonNull).dedup with e | keys
  · simp only [hsk] at hok; exact absurd hok (by simp)
  simp only [hsk] at hok
  rcases hsm : mapME (fun k => pySum (List.map Prod.snd
      (List.filter (fun p => decide (p.1 = k))
        (List.map (fun r => (r.getD 1 PyVal.null,
          pyReplace statusDict (r.getD (df.cols.length - 1) PyVal.null)))
          df.rows)))) keys with e | sums
  · simp only [hsm] at hok; exact absurd hok (by simp)
  simp only [hsm] at hok
  rcases hpc : mapME (fun sc =>
      match sc.1 with
      | PyVal.int m => if sc.2 = 0 then Except.error PyErr.zeroDivisionError
          else Except.ok (m, ((m : ℚ) / ((sc.2 : ℤ) : ℚ)) * 100)
      | _ => Except.error PyErr.typeError)
      (sums.zip (keys.map (fun k =>
        (List.filter nonNull (List.map Prod.snd
          (List.filter (fun p => decide (p.1 = k))
            (List.map (fun r => (r.getD 1 PyVal.null,
              pyReplace statusDict (r.getD (df.cols.length - 1) PyVal.null)))
              df.rows)))).length))) with e | pcts
  · simp only [hpc] at hok; exact absurd hok (by simp)
  -- the bad row's course is a group key
  have hpmem : (PyVal.str c,
      pyReplace statusDict (r.getD (df.cols.length - 1) PyVal.null)) ∈
      df.rows.map (fun r => (r.getD 1 PyVal.null,
        pyReplace statusDict (r.getD (df.cols.length - 1) PyVal.null))) := by
    rw [← hcourse]
    exact List.mem_map_of_mem _ hr
  have hkmem : PyVal.str c ∈ (((df.rows.map (fun r => (r.getD 1 PyVal.null,
      pyReplace statusDict (r.getD (df.cols.length - 1) PyVal.null)))).map
        Prod.fst).filter nonNull).dedup := by
    apply List.mem_dedup.mpr
    apply List.mem_filter.mpr
    refine ⟨?_, rfl⟩
    exact List.mem_map_of_mem Prod.fst hpmem
  have hkeys : PyVal.str c ∈ keys := sortKeys_ok_mem hsk _ hkmem
  obtain ⟨i, hik, hky⟩ := getD_of_mem PyVal.null hkeys
  have hsum := mapME_ok_getD PyVal.null PyVal.null hsm i hik
  rw [hky] at hsum
  -- the bad status is in the group of that key
  have hbad : PyVal.str s ∈ List.map Prod.snd
      (List.filter (fun p => decide (p.1 = PyVal.str c))
        (List.map (fun r => (r.getD 1 PyVal.null,
          pyReplace statusDict (r.getD (df.cols.length - 1) PyVal.null)))
          df.rows)) := by
    have hpf : (PyVal.str c,
        pyReplace statusDict (r.getD (df.cols.length - 1) PyVal.null)) ∈
        List.filter (fun p => decide (p.1 = PyVal.str c))
          (List.map (fun r => (r.getD 1 PyVal.null,
            pyReplace statusDict (r.getD (df.cols.length - 1) PyVal.null)))
            df.rows) :=
      List.mem_filter.mpr ⟨hpmem, by simp⟩
    have := List.mem_map_of_mem Prod.snd hpf
    rw [hstatus, pyReplace_other hP hA] at this
    exact this
  by_cases hint : ∃ n : ℤ, PyVal.int n ∈ List.map Prod.snd
      (List.filter (fun p => decide (p.1 = PyVal.str c))
        (List.map (fun r => (r.getD 1 PyVal.null,
          pyReplace statusDict (r.getD (df.cols.length - 1) PyVal.null)))
          df.rows))
  · obtain ⟨n, hn⟩ := hint
    rw [pySum_mixed s n hbad hn] at hsum
    exact absurd hsum (by simp)
  · have hall : ∀ v ∈ (List.map Prod.snd
        (List.filter (fun p => decide (p.1 = PyVal.str c))
          (List.map (fun r => (r.getD 1 PyVal.null,
            pyReplace statusDict (r.getD (df.cols.length - 1) PyVal.null)))
            df.rows))).filter nonNull, ∃ t, v = PyVal.str t := by
      intro v hv
      have hvl := List.mem_of_mem_filter hv
      have hvn : nonNull v = true := List.of_mem_filter hv
      rcases v with _ | t | n
      · rw [nonNull_null] at hvn; exact absurd hvn (by simp)
      · exact ⟨t, rfl⟩
      · exact absurd ⟨n, hvl⟩ hint
    obtain ⟨u, hu⟩ := pySum_all_str hall
      (List.ne_nil_of_mem (List.mem_filter.mpr ⟨hbad, rfl⟩))
    rw [hu] at hsum
    -- division of a string sum raises
    have hik2 : i < (sums.zip (keys.map (fun k =>
        (List.filter nonNull (List.map Prod.snd
          (List.filter (fun p => decide (p.1 = k))
            (List.map (fun r => (r.getD 1 PyVal.null,
              pyReplace statusDict (r.getD (df.cols.length - 1) PyVal.null)))
              df.rows)))).length))).length := by
      rw [List.length_zip, List.length_map, mapME_ok_length hsm]
      omega
    have hdiv := mapME_ok_getD (PyVal.null, (0 : ℕ)) ((0 : ℤ), (0 : ℚ)) hpc i hik2
    rw [getD_zip_lt _ _ (by rw [mapME_ok_length hsm]; exact hik)
      (by rw [List.length_map]; exact hik)] at hdiv
    have hsv : sums.getD i PyVal.null = PyVal.str u := by
      have := hsum.symm
      simpa using this
    simp only [hsv] at hdiv
    exact absurd hdiv (by simp)

def c8df : DF :=
  ⟨[.str "Sr", .str "Course", .str "S1"],
   [[.str "1", .null, .str "X"],
    [.str "2", .str "M", .str "P"]]⟩

/-- C8 counterexample: a table containing the out-of-vocabulary status "X"
in a null-course row aggregates successfully, the bad row silently dropped —
refuting the claim's "for every UnifiedTable containing at least one status
symbol outside {P,A}". -/
theorem C8_counterexample :
    (c8df.rows.getD 0 []).getD (c8df.cols.length - 1) .null = .str "X" ∧
    aggregateDF c8df = .ok [⟨.str "M", 1, 1, 100⟩] := by
  constructor
  · rfl
  · simp +decide [aggregateDF, c8df, sortKeys, strsOf, intsOf, strLe, mapME, pySum,
      pySumGo, pyAdd, pyReplace, statusDict, nonNull, List.insertionSort,
      List.orderedInsert]

def c8bad : DF :=
  ⟨[.str "Sr", .str "Course", .str "S1"],
   [[.str "1", .str "M", .str "X"]]⟩

/-- C8 witness: the corrected theorem applied to a one-row table with course
"M" and status "X"; aggregation errors. -/
theorem C8_witness :
    ([.str "1", .str "M", .str "X"] : List PyVal) ∈ c8bad.rows ∧
    ([.str "1", .str "M", .str "X"] : List PyVal).getD 1 .null = .str "M" ∧
    ([.str "1", .str "M", .str "X"] : List PyVal).getD (c8bad.cols.length - 1) .null = .str "X" ∧
    ("X" ≠ "P") ∧ ("X" ≠ "A") ∧
    ∃ e, aggregateDF c8bad = .error e :=
  ⟨by decide, by decide, by decide, by decide, by decide,
   C8_bad_symbol c8bad [.str "1", .str "M", .str "X"] "M" "X" (by decide)
     (by decide) (by decide) (by decide) (by decide)⟩

/-- C7 witness: the theorem applied to the rows of the (M:P, N:A, M:P) table
and a transposition of its last two rows. -/
theorem C7_witness :
    List.Perm
      ([[.str "1", .str "M", .str "P"], [.str "2", .str "M", .str "A"]] :
        List (List PyVal))
      [[.str "2", .str "M", .str "A"], [.str "1", .str "M", .str "P"]] ∧
    aggregateDF ⟨[.str "Sr", .str "Course", .str "S1"],
      [[.str "1", .str "M", .str "P"], [.str "2", .str "M", .str "A"]]⟩ =
    aggregateDF ⟨[.str "Sr", .str "Course", .str "S1"],
      [[.str "2", .str "M", .str "A"], [.str "1", .str "M", .str "P"]]⟩ :=
  ⟨by decide, C7_perm _ _ _ (by decide)⟩

theorem process_pdf_path_of_ok (p : List (List RawTable)) (r : String × String)
    (h : process_pdf p = .ok r) :
    r.2 = os_path_join TEMP_DIR "attendance_chart.png" := by
  unfold process_pdf at h
  rcases hm : merge (p.flatMap id) with e | df <;> rw [hm] at h
  · simp at h
  · simp only [generate_chart] at h
    rcases ha : aggregateDF df with e | stats <;> rw [ha] at h
    · simp at h
    · simp only [Except.ok.injEq] at h
      rw [← h]

/-- C2 (confirmed).  `Series.replace({'P': 1, 'A': 0})` on a cell sends the
string "P" to the integer 1, the string "A" to the integer 0, and leaves every
other value (nulls, other strings, integers) unchanged. -/
theorem C2_status_mapping (v : PyVal) :
    pyReplace statusDict v =
      if v = .str "P" then .int 1 else if v = .str "A" then .int 0 else v := by
  rcases v with _ | s | n
  · simp [pyReplace, statusDict]
  · by_cases hP : s = "P"
    · subst hP; simp [pyReplace, statusDict]
    · by_cases hA : s = "A"
      · subst hA; simp [pyReplace, statusDict]
      · rw [pyReplace_other hP hA]
        simp [hP, hA]
  · simp [pyReplace, statusDict]

/-- C4 (confirmed).  When the pages yield no tables at all, the pipeline
raises `ValueError("No tables found in the PDF.")` before any DataFrame work:
`merge []` and the whole `process_pdf` stop with the no-tables error, so no
unified table, report or chart is produced. -/
theorem C4_no_tables (pages : List (List RawTable))
    (h : pages.flatMap id = []) :
    merge [] = .error .noTablesFound ∧
    process_pdf pages = .error .noTablesFound := by
  refine ⟨rfl, ?_⟩
  unfold process_pdf
  rw [h]
  rfl

/-- C4 witness: the theorem applied to a two-page PDF with no tables on
either page. -/
theorem C4_witness :
    ([[], []] : List (List RawTable)).flatMap id = [] ∧
    process_pdf [[], []] = .error .noTablesFound :=
  ⟨rfl, (C4_no_tables [[], []] rfl).2⟩

/-- C9 counterexample: on an empty stats list `generate_chart` succeeds and
still writes a (bar-less) chart to the output path, refuting the claim that
it fails and leaves the file untouched. -/
theorem C9_counterexample :
    generate_chart [] "out.png" =
      .ok ⟨[], [], "Course", "Attendance Percentage", "Attendance Report",
        (0, 110), "out.png"⟩ := rfl

/-- C9 (corrected), amended statement.  `generate_chart` has no emptiness
guard and no error path: for every stats list, including the empty one, it
unconditionally draws one bar per course and saves the figure to the given
path.  There is no RenderError-kind failure on empty input. -/
theorem C9_amended (stats : List CourseStats) (path : String) :
    ∃ c, generate_chart stats path = .ok c ∧ c.outPath = path ∧
      c.bars = stats.map (fun s => (s.course, s.percentage)) ∧
      c.ylim = (0, 110) ∧ c.title = "Attendance Report" :=
  ⟨_, rfl, rfl, rfl, rfl, rfl⟩

/-- C10 (confirmed).  Whenever `process_pdf` succeeds, the returned chart
path is the fixed `os.path.join(TEMP_DIR, "attendance_chart.png")` —
independent of the input, with no caller-chosen location — so any two
successful runs return the same path. -/
theorem C10_fixed_chart_path (p1 p2 : List (List RawTable))
    (r1 r2 : String × String)
    (h1 : process_pdf p1 = .ok r1) (h2 : process_pdf p2 = .ok r2) :
    r1.2 = os_path_join TEMP_DIR "attendance_chart.png" ∧ r1.2 = r2.2 := by
  have e1 := process_pdf_path_of_ok p1 r1 h1
  have e2 := process_pdf_path_of_ok p2 r2 h2
  exact ⟨e1, e1.trans e2.symm⟩

theorem pyFormat2f_100 : pyFormat2f 100 = "100.00" := by
  have h : roundHalfEven (100 * 100) = 10000 := by norm_num [roundHalfEven]
  simp only [pyFormat2f, h]
  decide

def c10pages : List (List RawTable) :=
  [[[[.str "Sr", .str "Course", .str "S1"],
     [.str "1", .str "M", .str "P"]]]]

/-- The report the pipeline produces for `c10pages` (prefix characters
written with explicit escapes; see `reportBlock`). -/
def c10report : String :=
  "Course: M\n\u201A\u00FA\u00D6 Present: 1\n\u201A\u00F9\u00E5 Absent: 0\n" ++
  "\uF8FF\u00FC\u00EC\u00E4 Total: 1\n\uF8FF\u00FC\u00EC\u00E0 Percentage: 100.00%\n"

theorem c10_eval : process_pdf c10pages =
    .ok (c10report, "/tmp/attendance_chart.png") := by
  simp +decide [process_pdf, c10pages, c10report, merge, mergeStep, toDF, padRow,
    concatDFs, aggregateDF, sortKeys, strsOf, intsOf, strLe, mapME, pySum, pySumGo,
    pyAdd, pyReplace, statusDict, nonNull, report_text, reportBlock, showVal,
    pyFormat2f_100, generate_chart, os_path_join, TEMP_DIR,
    List.insertionSort, List.orderedInsert]

/-- C10 witness: the theorem applied twice to a concrete one-page PDF, whose
pipeline run evaluates to the fixed path "/tmp/attendance_chart.png". -/
theorem C10_witness :
    process_pdf c10pages = .ok (c10report, "/tmp/attendance_chart.png") ∧
    (c10report, ("/tmp/attendance_chart.png" : String)).2 =
      os_path_join TEMP_DIR "attendance_chart.png" :=
  ⟨c10_eval, (C10_fixed_chart_path c10pages c10pages _ _ c10_eval c10_eval).1⟩

set_option maxRecDepth 8192

theorem pyFormat2f_75 : pyFormat2f 75 = "75.00" := by
  have h : roundHalfEven (75 * 100) = 7500 := by norm_num [roundHalfEven]
  simp only [pyFormat2f, h]
  decide

theorem pyFormat2f_50 : pyFormat2f 50 = "50.00" := by
  have h : roundHalfEven (50 * 100) = 5000 := by norm_num [roundHalfEven]
  simp only [pyFormat2f, h]
  decide

def df75 : DF :=
  ⟨[.str "Sr", .str "Course", .str "S1"],
   [[.str "1", .str "CourseA", .str "P"],
    [.str "2", .str "CourseA", .str "P"],
    [.str "3", .str "CourseA", .str "A"],
    [.str "4", .str "CourseA", .str "P"],
    [.str "5", .str "CourseB", .str "P"],
    [.str "6", .str "CourseB", .str "A"],
    [.str "7", .str "CourseC", .str "P"]]⟩

theorem df75_eval : aggregateDF df75 =
    .ok [⟨.str "CourseA", 3, 4, 75⟩, ⟨.str "CourseB", 1, 2, 50⟩,
         ⟨.str "CourseC", 1, 1, 100⟩] := by
  simp +decide [aggregateDF, df75, sortKeys, strsOf, intsOf, strLe, mapME, pySum,
    pySumGo, pyAdd, pyReplace, statusDict, nonNull, List.insertionSort,
    List.orderedInsert]
  norm_num

def stats75 : List CourseStats :=
  [⟨.str "CourseA", 3, 4, 75⟩, ⟨.str "CourseB", 1, 2, 50⟩,
   ⟨.str "CourseC", 1, 1, 100⟩]

def report75 : String :=
  "Course: CourseA\n‚úÖ Present: 3\n‚ùå Absent: 1\n" ++
  "üìä Total: 4\nüìà Percentage: 75.00%\n\n" ++
  "Course: CourseB\n‚úÖ Present: 1\n‚ùå Absent: 1\n" ++
  "üìä Total: 2\nüìà Percentage: 50.00%\n\n" ++
  "Course: CourseC\n‚úÖ Present: 1\n‚ùå Absent: 0\n" ++
  "üìä Total: 1\nüìà Percentage: 100.00%\n"

theorem report75_eval : report_text stats75 = report75 := by
  simp +decide [report_text, reportBlock, showVal, stats75, report75,
    pyFormat2f_75, pyFormat2f_50, pyFormat2f_100]

/-- C5 counterexample: on one CourseStats row the actual report differs from
the claim's plain five-line block (no prefixes, no trailing newline). -/
theorem C5_counterexample :
    report_text [⟨.str "CourseA", 3, 4, 75⟩] ≠
    claimedReport [⟨.str "CourseA", 3, 4, 75⟩] := by
  have e1 : report_text [(⟨.str "CourseA", 3, 4, 75⟩ : CourseStats)] =
      "Course: CourseA\n‚úÖ Present: 3\n‚ùå Absent: 1\n" ++
      "üìä Total: 4\nüìà Percentage: 75.00%\n" := by
    simp +decide [report_text, reportBlock, showVal, pyFormat2f_75]
  have e2 : claimedReport [(⟨.str "CourseA", 3, 4, 75⟩ : CourseStats)] =
      "Course: CourseA\nPresent: 3\nAbsent: 1\nTotal: 4\nPercentage: 75.00%" := by
    simp +decide [claimedReport, showVal, pyFormat2f_75]
  rw [e1, e2]
  decide

/-- C5 (corrected), amended statement.  Two deviations from the claim: each
line after the first carries a mojibake prefix (the source file's literal
bytes "\u201A\u00FA\u00D6 ", "\u201A\u00F9\u00E5 ", "\uF8FF\u00FC\u00EC\u00E4 ",
"\uF8FF\u00FC\u00EC\u00E0 " before Present/Absent/Total/Percentage), and every
block ends in a newline before the `"\n".join`, so consecutive blocks are
separated by a blank line.  Amended: the report is exactly the join of those
prefixed newline-terminated blocks in input order, and the claim's round-trip
still holds: the report for the CourseA = P,P,A,P table contains the exact
substring "Percentage: 75.00%". -/
theorem C5_amended :
    (∀ stats : List CourseStats, report_text stats =
      String.intercalate "\n" (stats.map (fun s =>
        "Course: " ++ showVal s.course ++ "\n" ++
        "‚úÖ Present: " ++ toString s.sumPresent ++ "\n" ++
        "‚ùå Absent: " ++ toString (s.countLecture - s.sumPresent) ++ "\n" ++
        "üìä Total: " ++ toString s.countLecture ++ "\n" ++
        "üìà Percentage: " ++ pyFormat2f s.percentage ++ "%\n"))) ∧
    (aggregateDF df75).toOption.map
      (fun sts => strContains (report_text sts) "Percentage: 75.00%") = some true := by
  constructor
  · intro stats
    rfl
  · rw [df75_eval]
    show some (strContains (report_text stats75) "Percentage: 75.00%") = some true
    rw [report75_eval]
    decide

theorem foldr_max_const {n : ℕ} :
    ∀ {l : List ℕ}, (∀ x ∈ l, x = n) → l ≠ [] → l.foldr max 0 = n := by
  intro l
  induction l with
  | nil => intro _ h; exact absurd rfl h
  | cons a l ih =>
    intro h _
    have ha := h a (List.mem_cons_self a l)
    subst ha
    rcases l with _ | ⟨b, l'⟩
    · simp
    · have := ih (fun x hx => h x (List.mem_cons_of_mem _ hx)) (by simp)
      simp only [List.foldr_cons] at this ⊢
      rw [this]
      have hb := h a (List.mem_cons_self a _)
      simp

theorem padRow_self {r : List PyVal} {w : ℕ} (h : r.length = w) :
    padRow w r = r := by
  simp [padRow, h]

theorem toDF_rect {h : List PyVal} {data : List (List PyVal)}
    (hrect : ∀ r ∈ data, r.length = h.length) :
    toDF (h :: data) = .ok ⟨h, data⟩ := by
  simp only [toDF]
  have hw : (((h :: data).map List.length).foldr max 0) = h.length := by
    apply foldr_max_const
    · intro x hx
      rcases List.mem_map.mp hx with ⟨r, hr, rfl⟩
      rcases List.mem_cons.mp hr with rfl | hr'
      · rfl
      · exact hrect r hr'
    · simp
  rw [hw, padRow_self rfl]
  have : data.map (padRow h.length) = data := by
    rw [List.map_congr_left (fun r hr => padRow_self (hrect r hr))]
    exact List.map_id data
  rw [this]

theorem idxAll_not_mem {x : PyVal} :
    ∀ {l : List PyVal}, x ∉ l → idxAll x l = [] := by
  intro l
  induction l with
  | nil => intro _; rfl
  | cons y l ih =>
    intro h
    have hy : y ≠ x := fun he => h (he ▸ List.mem_cons_self y l)
    have hx : x ∉ l := fun hx => h (List.mem_cons_of_mem _ hx)
    simp [idxAll, hy, ih hx]

theorem idxAll_cons_ne {x y : PyVal} (h : y ≠ x) (l : List PyVal) :
    idxAll x (y :: l) = (idxAll x l).map (· + 1) := by
  simp [idxAll, h]

theorem idxAll_nodup_self :
    ∀ {l : List PyVal}, l.Nodup → l.flatMap (fun x => idxAll x l) = List.range l.length := by
  intro l
  induction l with
  | nil => intro _; rfl
  | cons a l ih =>
    intro hnd
    have hna : a ∉ l := (List.nodup_cons.mp hnd).1
    have hndl : l.Nodup := (List.nodup_cons.mp hnd).2
    rw [List.flatMap_cons]
    have h1 : idxAll a (a :: l) = [0] := by
      simp [idxAll, idxAll_not_mem hna]
    have h2 : l.flatMap (fun x => idxAll x (a :: l)) =
        (l.flatMap (fun x => idxAll x l)).map (· + 1) := by
      rw [List.map_flatMap]
      apply List.flatMap_congr
      intro x hx
      have hax : a ≠ x := fun he => hna (he ▸ hx)
      exact idxAll_cons_ne hax l
    rw [h1, h2, ih hndl]
    show [0] ++ List.map (fun x => x + 1) (List.range l.length) =
      List.range (l.length + 1)
    rw [List.range_succ_eq_map]
    simp [Nat.succ_eq_add_one, add_comm]

theorem map_range_getD :
    ∀ {l : List PyVal}, (List.range l.length).map (fun i => l.getD i .null) = l := by
  intro l
  induction l with
  | nil => rfl
  | cons a l ih =>
    show (List.range (l.length + 1)).map (fun i => (a :: l).getD i .null) = a :: l
    rw [List.range_succ_eq_map, List.map_cons, List.map_map]
    have : (fun i => (a :: l).getD i PyVal.null) ∘ Nat.succ =
        fun i => l.getD i PyVal.null := by
      funext i
      simp [Function.comp]
    rw [this, ih]
    rfl

theorem map_range_getD_succ :
    ∀ {r : List PyVal} {n : ℕ}, r.length = n + 1 →
      (List.range n).map (fun i => r.getD (i + 1) .null) = r.drop 1 := by
  intro r n h
  cases r with
  | nil => simp at h
  | cons a r =>
    have hn : r.length = n := by simpa using h
    subst hn
    have : (List.range r.length).map (fun i => (a :: r).getD (i + 1) PyVal.null) =
        (List.range r.length).map (fun i => r.getD i PyVal.null) := by
      apply List.map_congr_left
      intro i _
      rfl
    rw [this, map_range_getD]
    rfl

theorem selectLabels_tail {h0 : PyVal} {htl : List PyVal}
    {data : List (List PyVal)}
    (hna : h0 ∉ htl) (hnd : htl.Nodup)
    (hrect : ∀ r ∈ data, r.length = htl.length + 1) :
    selectLabels ⟨h0 :: htl, data⟩ htl =
      ⟨htl, data.map (fun r => r.drop 1)⟩ := by
  simp only [selectLabels]
  have hidxs : htl.flatMap (fun l => idxAll l (h0 :: htl)) =
      (List.range htl.length).map (· + 1) := by
    have : htl.flatMap (fun l => idxAll l (h0 :: htl)) =
        (htl.flatMap (fun l => idxAll l htl)).map (· + 1) := by
      rw [List.map_flatMap]
      apply List.flatMap_congr
      intro x hx
      have hx0 : h0 ≠ x := fun he => hna (he ▸ hx)
      exact idxAll_cons_ne hx0 htl
    rw [this, idxAll_nodup_self hnd]
  rw [hidxs]
  congr 1
  · rw [List.map_map]
    have : (fun i => (h0 :: htl).getD i PyVal.null) ∘ (· + 1) =
        fun i => htl.getD i PyVal.null := by
      funext i
      rfl
    rw [this, map_range_getD]
  · apply List.map_congr_left
    intro r hr
    rw [List.map_map]
    have : (fun i => r.getD i PyVal.null) ∘ (· + 1) =
        fun i => r.getD (i + 1) PyVal.null := by
      funext i
      rfl
    rw [this]
    exact map_range_getD_succ (hrect r hr)

theorem idxOf?_not_mem {x : PyVal} :
    ∀ {l : List PyVal}, x ∉ l → idxOf? x l = none := by
  intro l
  induction l with
  | nil => intro _; rfl
  | cons y l ih =>
    intro h
    have hy : y ≠ x := fun he => h (he ▸ List.mem_cons_self y l)
    have hx : x ∉ l := fun hx => h (List.mem_cons_of_mem _ hx)
    simp [idxOf?, hy, ih hx]

theorem reindexRow_tail_self :
    ∀ {htl : List PyVal}, htl.Nodup →
      ∀ {r : List PyVal}, r.length = htl.length →
      htl.map (fun l => match idxOf? l htl with
        | some i => r.getD i .null
        | none => .null) = r := by
  intro htl
  induction htl with
  | nil =>
    intro _ r hr
    rw [List.length_nil, List.length_eq_zero] at hr
    rw [hr]
    rfl
  | cons a tl ih =>
    intro hnd r hr
    have hna : a ∉ tl := (List.nodup_cons.mp hnd).1
    have hndl : tl.Nodup := (List.nodup_cons.mp hnd).2
    cases r with
    | nil => simp at hr
    | cons v rt =>
      have hrt : rt.length = tl.length := by simpa using hr
      rw [List.map_cons]
      have hhead : (match idxOf? a (a :: tl) with
          | some i => (v :: rt).getD i PyVal.null
          | none => PyVal.null) = v := by
        simp [idxOf?]
      rw [hhead]
      have htail : tl.map (fun l => match idxOf? l (a :: tl) with
          | some i => (v :: rt).getD i PyVal.null
          | none => PyVal.null) =
          tl.map (fun l => match idxOf? l tl with
            | some i => rt.getD i PyVal.null
            | none => PyVal.null) := by
        apply List.map_congr_left
        intro x hx
        have hax : a ≠ x := fun he => hna (he ▸ hx)
        simp only [idxOf?, if_neg hax]
        rcases hi : idxOf? x tl with _ | i
        · rfl
        · rfl
      rw [htail, ih hndl hrt]

theorem reindexRow_shift {h0 : PyVal} {htl : List PyVal}
    (hna : h0 ∉ htl) (hnd : htl.Nodup)
    {r : List PyVal} (hr : r.length = htl.length) :
    reindexRow htl (h0 :: htl) r = .null :: r := by
  simp only [reindexRow, List.map_cons]
  rw [idxOf?_not_mem hna]
  rw [reindexRow_tail_self hnd hr]

theorem foldl_dedup_acc_mem :
    ∀ {l acc : List PyVal}, (∀ x ∈ l, x ∈ acc) →
      l.foldl (fun acc x => if x ∈ acc then acc else acc ++ [x]) acc = acc := by
  intro l
  induction l with
  | nil => intro acc _; rfl
  | cons a l ih =>
    intro acc h
    have ha : a ∈ acc := h a (List.mem_cons_self a l)
    simp only [List.foldl_cons, if_pos ha]
    exact ih (fun x hx => h x (List.mem_cons_of_mem _ hx))

theorem foldl_dedup_nodup :
    ∀ {l acc : List PyVal}, (∀ x ∈ l, x ∉ acc) → l.Nodup →
      l.foldl (fun acc x => if x ∈ acc then acc else acc ++ [x]) acc = acc ++ l := by
  intro l
  induction l with
  | nil => intro acc _ _; simp
  | cons a l ih =>
    intro acc h hnd
    have ha : a ∉ acc := h a (List.mem_cons_self a l)
    simp only [List.foldl_cons, if_neg ha]
    have hsub : ∀ x ∈ l, x ∉ acc ++ [a] := by
      intro x hx hmem
      rcases List.mem_append.mp hmem with h1 | h2
      · exact h x (List.mem_cons_of_mem _ hx) h1
      · have : x = a := by simpa using h2
        exact (List.nodup_cons.mp hnd).1 (this ▸ hx)
    rw [ih hsub (List.nodup_cons.mp hnd).2]
    simp

theorem firstDedup_append_subset {h t : List PyVal}
    (hnd : h.Nodup) (hsub : ∀ x ∈ t, x ∈ h) :
    firstDedup (h ++ t) = h := by
  unfold firstDedup
  rw [List.foldl_append]
  rw [foldl_dedup_nodup (by simp) hnd]
  simp only [List.nil_append]
  exact foldl_dedup_acc_mem hsub

theorem idxUnion_tail {h0 : PyVal} {htl : List PyVal}
    (hnd : (h0 :: htl).Nodup) :
    idxUnion (h0 :: htl) htl = h0 :: htl := by
  unfold idxUnion
  have hne : (h0 :: htl) ≠ htl := by
    intro he
    have := congrArg List.length he
    simp at this
  rw [if_neg hne]
  rcases heq : htl with _ | ⟨b, tl⟩
  · rw [if_pos rfl]
  · rw [if_neg (by simp), if_neg (by simp)]
    rw [← heq]
    have hsub : ∀ x ∈ htl, x ∈ h0 :: htl := fun x hx => List.mem_cons_of_mem _ hx
    rw [firstDedup_append_subset hnd hsub]
    have : ∀ v ∈ h0 :: htl,
        List.replicate (max ((h0 :: htl).count v) (htl.count v)) v = [v] := by
      intro v hv
      have h1 : (h0 :: htl).count v = 1 := List.count_eq_one_of_mem hnd hv
      have h2 : htl.count v ≤ 1 :=
        List.nodup_iff_count_le_one.mp (List.nodup_cons.mp hnd).2 v
      have h3 : max ((h0 :: htl).count v) (htl.count v) = 1 := by omega
      rw [h3]
      rfl
    rw [List.flatMap_congr this]
    exact List.flatMap_singleton' _

theorem foldl_idxUnion_const {h0 : PyVal} {htl : List PyVal}
    (hnd : (h0 :: htl).Nodup) :
    ∀ {ls : List (List PyVal)}, (∀ c ∈ ls, c = htl) →
      ls.foldl idxUnion (h0 :: htl) = h0 :: htl := by
  intro ls
  induction ls with
  | nil => intro _; rfl
  | cons c ls ih =>
    intro h
    have hc := h c (List.mem_cons_self c ls)
    subst hc
    simp only [List.foldl_cons, idxUnion_tail hnd]
    exact ih (fun x hx => h x (List.mem_cons_of_mem _ hx))

theorem filter_ne_head {h0 : PyVal} {htl : List PyVal} (hna : h0 ∉ htl) :
    (h0 :: htl).filter (fun c => c ≠ h0) = htl := by
  rw [List.filter_cons_of_neg (by simp)]
  apply List.filter_eq_self.mpr
  intro x hx
  have : x ≠ h0 := fun he => hna (he ▸ hx)
  simpa using this

theorem foldlM_mergeStep {h0 : PyVal} {htl : List PyVal}
    (hna : h0 ∉ htl) (hnd : htl.Nodup) :
    ∀ {ts' : List RawTable} (dfs : List DF),
      (∀ tab ∈ ts', ∃ data, tab = (h0 :: htl) :: data ∧
        ∀ r ∈ data, r.length = htl.length + 1) →
      ts'.foldlM mergeStep (some (h0 :: htl), dfs) =
        .ok (some (h0 :: htl), dfs ++ ts'.map (fun tab =>
          (⟨htl, tab.tail.map (fun r => r.drop 1)⟩ : DF))) := by
  intro ts'
  induction ts' with
  | nil =>
    intro dfs _
    simp only [List.foldlM_nil, List.map_nil, List.append_nil]
    rfl
  | cons t ts' ih =>
    intro dfs h
    obtain ⟨data, rfl, hrect⟩ := h t (List.mem_cons_self t ts')
    rw [List.foldlM_cons]
    have hstep : mergeStep (some (h0 :: htl), dfs) ((h0 :: htl) :: data) =
        .ok (some (h0 :: htl),
          dfs ++ [⟨htl, data.map (fun r => r.drop 1)⟩]) := by
      simp only [mergeStep]
      rw [toDF_rect (by simpa using hrect)]
      show Except.ok (some (h0 :: htl),
        dfs ++ [selectLabels ⟨h0 :: htl, data⟩
          ((h0 :: htl).filter (fun c => c ≠ h0))]) = _
      rw [filter_ne_head hna,
        selectLabels_tail hna hnd (by simpa using hrect)]
    rw [hstep]
    show ts'.foldlM mergeStep (some (h0 :: htl),
      dfs ++ [⟨htl, data.map (fun r => r.drop 1)⟩]) = _
    rw [ih _ (fun tab ht => h tab (List.mem_cons_of_mem _ ht))]
    simp

theorem concatDFs_aligned {h0 : PyVal} {htl : List PyVal}
    (hnd : (h0 :: htl).Nodup)
    (data1 : List (List PyVal)) (laters : List (List (List PyVal)))
    (hrect : ∀ d ∈ laters, ∀ r ∈ d, r.length = htl.length) :
    concatDFs ((⟨h0 :: htl, data1⟩ : DF) ::
        laters.map (fun d => (⟨htl, d⟩ : DF))) =
      .ok ⟨h0 :: htl, data1 ++
        laters.flatMap (fun d => d.map (fun r => PyVal.null :: r))⟩ := by
  rcases laters with _ | ⟨l0, ls⟩
  · simp only [List.map_nil, concatDFs, List.all_nil, if_pos rfl]
    simp
  simp only [concatDFs]
  have hallf : ((l0 :: ls).map (fun d => (⟨htl, d⟩ : DF))).all
      (fun e => e.cols = (⟨h0 :: htl, data1⟩ : DF).cols) = false := by
    apply List.all_eq_false.mpr
    refine ⟨⟨htl, l0⟩, by simp, ?_⟩
    simp only [decide_eq_true_eq]
    intro he
    have := congrArg List.length he
    simp at this
  rw [hallf]
  rw [if_neg (by simp)]
  have hcols : ((⟨h0 :: htl, data1⟩ : DF) ::
      (l0 :: ls).map (fun d => (⟨htl, d⟩ : DF))).map DF.cols =
      (h0 :: htl) :: List.replicate (l0 :: ls).length htl := by
    simp [List.map_map, Function.comp_def, List.replicate_succ, List.map_const']
  rw [hcols]
  have hu : unionColsList ((h0 :: htl) :: List.replicate (l0 :: ls).length htl) =
      h0 :: htl := by
    simp only [unionColsList]
    apply foldl_idxUnion_const hnd
    intro c hc
    exact (List.eq_of_mem_replicate hc)
  rw [hu]
  have hmap := @mapME_ok_of_forall DF (List (List PyVal))
    (fun e : DF =>
      if e.cols = h0 :: htl then Except.ok e.rows
      else if e.cols.Nodup then .ok (e.rows.map (reindexRow e.cols (h0 :: htl)))
      else .error .invalidIndex)
    (fun e : DF =>
      if e.cols = h0 :: htl then e.rows
      else e.rows.map (reindexRow e.cols (h0 :: htl)))
    ((⟨h0 :: htl, data1⟩ : DF) :: (l0 :: ls).map (fun d => (⟨htl, d⟩ : DF)))
    (by
      intro e he
      rcases List.mem_cons.mp he with rfl | he'
      · simp
      · obtain ⟨d, hd, rfl⟩ := List.mem_map.mp he'
        have hne : htl ≠ h0 :: htl := by
          intro he2
          have := congrArg List.length he2
          simp at this
        simp [hne, (List.nodup_cons.mp hnd).2])
  rw [hmap]
  show Except.ok (⟨h0 :: htl,
    (List.map (fun e : DF => if e.cols = h0 :: htl then e.rows
      else List.map (reindexRow e.cols (h0 :: htl)) e.rows)
      ((⟨h0 :: htl, data1⟩ : DF) ::
        List.map (fun d => (⟨htl, d⟩ : DF)) (l0 :: ls))).flatten⟩ : DF) = _
  refine congrArg (fun rows => Except.ok (⟨h0 :: htl, rows⟩ : DF)) ?_
  simp only [List.map_cons, List.map_map, List.flatten_cons]
  have hne : htl ≠ h0 :: htl := by
    intro he2
    have := congrArg List.length he2
    simp at this
  rw [if_pos trivial, if_neg hne]
  rw [List.flatMap_def, List.map_cons, List.flatten_cons]
  congr 1
  congr 1
  · apply List.map_congr_left
    intro r hr
    exact reindexRow_shift (List.nodup_cons.mp hnd).1 (List.nodup_cons.mp hnd).2
      (hrect l0 (List.mem_cons_self l0 ls) r hr)
  · refine congrArg List.flatten ?_
    apply List.map_congr_left
    intro d hd
    have hd' : d ∈ l0 :: ls := List.mem_cons_of_mem _ hd
    simp only [Function.comp_apply]
    rw [if_neg hne]
    apply List.map_congr_left
    intro r hr
    exact reindexRow_shift (List.nodup_cons.mp hnd).1 (List.nodup_cons.mp hnd).2
      (hrect d hd' r hr)

theorem exc_bind_ok {α β : Type} (a : α) (f : α → Except PyErr β) :
    ((Except.ok a : Except PyErr α) >>= f) = f a := rfl

/-- C3 (corrected).  The claim's unconditional "for every non-empty sequence
whose tables repeat the same header" fails: with two or more tables repeating
a header in which some label other than `headers[0]` occurs twice (e.g.
`[x, y, y]`), the later tables keep duplicate column labels and `pd.concat`'s
union reindex raises (see the counterexample).  Corrected: for a non-empty
list of raw tables all repeating one duplicate-free header row `h0 :: htl`,
with rectangular data rows, `merge` succeeds; its rows are the first table's
data rows followed, in page order and within-page row order, by every later
table's data rows with the first cell nulled (the `headers[0]` column was
dropped from later tables, and the union reindex re-inserts it as missing);
the row count is the sum over tables of (rows minus the one header row). -/
theorem C3_merge (h0 : PyVal) (htl : List PyVal) (ts : List RawTable)
    (hne : ts ≠ [])
    (hnd : (h0 :: htl).Nodup)
    (hshape : ∀ tab ∈ ts, ∃ data, tab = (h0 :: htl) :: data ∧
      ∀ r ∈ data, r.length = htl.length + 1) :
    merge ts = .ok ⟨h0 :: htl, mergeSpecRows ts⟩ ∧
    (mergeSpecRows ts).length = (ts.map (fun tab => tab.length - 1)).sum := by
  rcases ts with _ | ⟨t, ts'⟩
  · exact absurd rfl hne
  obtain ⟨data1, rfl, hrect1⟩ := hshape _ (List.mem_cons_self _ _)
  have hna : h0 ∉ htl := (List.nodup_cons.mp hnd).1
  have hndtl : htl.Nodup := (List.nodup_cons.mp hnd).2
  have hrectL : ∀ d ∈ ts'.map (fun tab => tab.tail.map (fun r => r.drop 1)),
      ∀ r ∈ d, r.length = htl.length := by
    intro d hd r hr
    obtain ⟨tab, htab, rfl⟩ := List.mem_map.mp hd
    obtain ⟨data, rfl, hrect⟩ := hshape tab (List.mem_cons_of_mem _ htab)
    obtain ⟨r0, hr0, rfl⟩ := List.mem_map.mp hr
    have := hrect r0 (by simpa using hr0)
    simp [this]
  constructor
  · unfold merge
    rw [List.foldlM_cons]
    have hstep1 : mergeStep (none, []) ((h0 :: htl) :: data1) =
        .ok (some (h0 :: htl), [⟨h0 :: htl, data1⟩]) := by
      simp only [mergeStep]
      rw [toDF_rect (by simpa using hrect1)]
      rfl
    rw [hstep1]
    simp only [exc_bind_ok]
    have hfold := @foldlM_mergeStep h0 htl hna hndtl ts' [⟨h0 :: htl, data1⟩]
      (fun tab ht => hshape tab (List.mem_cons_of_mem _ ht))
    simp only [hfold, List.singleton_append]
    have hml : ts'.map (fun tab =>
        (⟨htl, tab.tail.map (fun r => r.drop 1)⟩ : DF)) =
        (ts'.map (fun tab => tab.tail.map (fun r => r.drop 1))).map
          (fun d => (⟨htl, d⟩ : DF)) := by
      rw [List.map_map]
      rfl
    rw [hml]
    simp only [concatDFs_aligned hnd data1
      (ts'.map (fun tab => tab.tail.map (fun r => r.drop 1))) hrectL]
    show Except.ok (⟨h0 :: htl, data1 ++
        (ts'.map (fun tab => tab.tail.map (fun r => r.drop 1))).flatMap
          (fun d => d.map (fun r => PyVal.null :: r))⟩ : DF) = _
    have hrows : (ts'.map (fun tab => tab.tail.map (fun r => r.drop 1))).flatMap
        (fun d => d.map (fun r => PyVal.null :: r)) =
        ts'.flatMap (fun tab => tab.tail.map (fun r => PyVal.null :: r.drop 1)) := by
      rw [List.flatMap_map]
      apply List.flatMap_congr
      intro tab _
      rw [List.map_map]
      rfl
    rw [hrows]
    rfl
  · rw [show mergeSpecRows (((h0 :: htl) :: data1) :: ts') =
        data1 ++ ts'.flatMap (fun tab =>
          tab.tail.map (fun r => PyVal.null :: r.drop 1)) from rfl]
    rw [List.length_append, List.map_cons, List.sum_cons,
      show ((h0 :: htl) :: data1).length - 1 = data1.length from by simp,
      List.flatMap_def, List.length_flatten, List.map_map]
    congr 1
    apply congrArg List.sum
    apply List.map_congr_left
    intro tab htab
    obtain ⟨data, rfl, _⟩ := hshape tab (List.mem_cons_of_mem _ htab)
    simp [Function.comp]

/-- C3 counterexample: two pages repeating the same header `[x, y, y]`, in
which the label `y` (kept by the later page's `columns != headers[0]` mask)
occurs twice, make `merge` fail (pandas "cannot reindex on an axis with
duplicate labels", modelled as `.invalidIndex`) instead of producing a 2-row
unified table, refuting the claim's unconditional row-count statement. -/
theorem C3_counterexample :
    merge [[[.str "x", .str "y", .str "y"], [.str "a", .str "b", .str "c"]],
           [[.str "x", .str "y", .str "y"], [.str "d", .str "e", .str "f"]]] =
      .error .invalidIndex := by decide

def c3ts : List RawTable :=
  [[[.str "Sr", .str "Course"], [.str "1", .str "M"]],
   [[.str "Sr", .str "Course"], [.str "2", .str "N"]]]

/-- C3 witness: the corrected theorem applied to two concrete one-row pages
sharing the duplicate-free header `[Sr, Course]`: `merge` succeeds and the
row count is 1 + 1. -/
theorem C3_witness :
    c3ts ≠ [] ∧
    ((.str "Sr" : PyVal) :: [.str "Course"]).Nodup ∧
    (∀ tab ∈ c3ts, ∃ data, tab = ((.str "Sr" : PyVal) :: [.str "Course"]) :: data ∧
      ∀ r ∈ data, r.length = ([.str "Course"] : List PyVal).length + 1) ∧
    merge c3ts = .ok ⟨(.str "Sr" : PyVal) :: [.str "Course"], mergeSpecRows c3ts⟩ ∧
    (mergeSpecRows c3ts).length = (c3ts.map (fun tab => tab.length - 1)).sum := by
  refine ⟨by decide, by decide, ?_, ?_, ?_⟩
  · intro tab htab
    rcases List.mem_cons.mp htab with rfl | htab'
    · exact ⟨[[.str "1", .str "M"]], rfl, by decide⟩
    · rcases List.mem_cons.mp htab' with rfl | h
      · exact ⟨[[.str "2", .str "N"]], rfl, by decide⟩
      · simp at h
  · exact (C3_merge (.str "Sr") [.str "Course"] c3ts (by decide) (by decide)
      (by
        intro tab htab
        rcases List.mem_cons.mp htab with rfl | htab'
        · exact ⟨[[.str "1", .str "M"]], rfl, by decide⟩
        · rcases List.mem_cons.mp htab' with rfl | h
          · exact ⟨[[.str "2", .str "N"]], rfl, by decide⟩
          · simp at h)).1
  · exact (C3_merge (.str "Sr") [.str "Course"] c3ts (by decide) (by decide)
      (by
        intro tab htab
        rcases List.mem_cons.mp htab with rfl | htab'
        · exact ⟨[[.str "1", .str "M"]], rfl, by decide⟩
        · rcases List.mem_cons.mp htab' with rfl | h
          · exact ⟨[[.str "2", .str "N"]], rfl, by decide⟩
          · simp at h)).2
